import Mathlib

/-!
Verification of the picoevents notification library (picoevents.h).

The model is a shallow embedding.  A channel (the C++ class Event) owns an
ordered sequence of callbacks; the C++ representation is a std::list whose
iterators serve as stable subscription handles.  We model each list node by a
fresh numeric id drawn from a ghost allocator nextId, so a CallbackID is an
Option Nat: some id is an iterator to the node with that id, none is the end
sentinel.  Callback bodies are modelled by a small action type: a callback
either does nothing observable (Act.pure) or calls Event remove on a handle
variable stored in the surrounding world (Act.removeH), which is exactly the
reentrant mutation the source supports during dispatch.  Every invocation is
recorded in a trace as a triple of node id, callback label and argument.

Operations that are undefined behavior in C++ (dereferencing, comparing or
erasing a dangling iterator; running out of the loop measure) are modelled by
returning none, so a result of the form some r asserts a completed, crash free
execution.
-/

namespace Picoevents

/-- Body of a registered callback: either it performs no channel mutation, or,
when invoked during dispatch, it calls remove on the handle variable with the
given index in the world's handle store. -/
inductive Act where
  | pure : Act
  | removeH : Nat → Act
deriving DecidableEq

/-- A callback value: an observable label (standing for the C++ closure) plus
its action on the channel when invoked. -/
structure Cb where
  label : Nat
  act : Act
deriving DecidableEq

/-- State of one Event channel: the ordered callback list (node id, body),
the enabled flag, the shared dispatch cursor nextCallback, and the ghost
allocator for fresh node ids. -/
structure Event where
  callbacks : List (Nat × Cb)
  enabled : Bool
  nextCallback : Option Nat
  nextId : Nat
deriving DecidableEq

/-- A freshly constructed Event: no callbacks, enabled, cursor at end. -/
def Event.new : Event := ⟨[], true, none, 0⟩

/-- The ids of the nodes of a callback list, in order. -/
def Ids (l : List (Nat × Cb)) : List Nat := l.map Prod.fst

/-- The labels of the nodes of a callback list, in order. -/
def Labels (l : List (Nat × Cb)) : List Nat := l.map (fun p => p.2.label)

/-- Dereference the node with the given id (iterator dereference). -/
def lookupCb : List (Nat × Cb) → Nat → Option Cb
  | [], _ => none
  | p :: rest, j => if p.1 = j then some p.2 else lookupCb rest j

/-- The id following node j in the list (std::next), none when j is last. -/
def succAfter : List (Nat × Cb) → Nat → Option Nat
  | [], _ => none
  | p :: rest, j => if p.1 = j then rest.head?.map Prod.fst else succAfter rest j

/-- Erase the node with id j (std::list erase of the iterator). -/
def eraseId : List (Nat × Cb) → Nat → List (Nat × Cb)
  | [], _ => []
  | p :: rest, j => if p.1 = j then rest else p :: eraseId rest j

/-- Overwrite the body stored at node j, keeping the node in place. -/
def writeAt : List (Nat × Cb) → Nat → Cb → List (Nat × Cb)
  | [], _, _ => []
  | p :: rest, j, c => if p.1 = j then (p.1, c) :: rest else p :: writeAt rest j c

/-- The suffix of the list starting at node j (the nodes from the iterator j
to the end), empty when j is not present. -/
def suffixFrom : List (Nat × Cb) → Nat → List (Nat × Cb)
  | [], _ => []
  | p :: rest, j => if p.1 = j then p :: rest else suffixFrom rest j

/-- Event setEnabled. -/
def Event.setEnabled (s : Event) (b : Bool) : Event := { s with enabled := b }

/-- Event isEnabled. -/
def Event.isEnabled (s : Event) : Bool := s.enabled

/-- Event empty_callback: the end sentinel. -/
def Event.empty_callback (_s : Event) : Option Nat := none

/-- Event add: push_front when first is true, else push_back; returns the new
state and the iterator (node id) of the inserted callback. -/
def Event.add (s : Event) (c : Cb) (first : Bool) : Event × Nat :=
  if first then
    ({ s with callbacks := (s.nextId, c) :: s.callbacks, nextId := s.nextId + 1 }, s.nextId)
  else
    ({ s with callbacks := s.callbacks ++ [(s.nextId, c)], nextId := s.nextId + 1 }, s.nextId)

/-- Event remove.  Takes the handle by reference: the returned Option Nat is
the new value of the caller's handle variable (always the end sentinel after a
removal).  With the end sentinel the call is a no-op.  With a live id, if the
removed node is the one the dispatch cursor is about to visit, the cursor is
advanced first; then the node is erased.  With a stale id (node already
erased) the C++ code compares and erases a dangling iterator, which is
undefined behavior: modelled as none. -/
def Event.remove : Event → Option Nat → Option (Event × Option Nat)
  | s, none => some (s, none)
  | s, some j =>
    if j ∈ Ids s.callbacks then
      let s1 := if s.nextCallback = some j
                then { s with nextCallback := succAfter s.callbacks j }
                else s
      some ({ s1 with callbacks := eraseId s1.callbacks j }, none)
    else none

/-- Event replace: unconditionally dereferences the handle and overwrites the
stored callback, then reports true.  Dereferencing the end sentinel or a stale
handle is undefined behavior: modelled as none. -/
def Event.replace : Event → Option Nat → Cb → Option (Event × Bool)
  | _, none, _ => none
  | s, some j, c =>
    if j ∈ Ids s.callbacks then
      some ({ s with callbacks := writeAt s.callbacks j c }, true)
    else none

/-- A channel together with the handle variables callbacks may close over;
Act.removeH indexes into handles. -/
structure World where
  ev : Event
  handles : List (Option Nat)
deriving DecidableEq

/-- One recorded invocation: node id, callback label, argument value. -/
abbrev TraceEntry := Nat × Nat × Nat

/-- Run the body of a callback during dispatch. -/
def runAct : Act → World → Option World
  | Act.pure, w => some w
  | Act.removeH i, w =>
    (Event.remove w.ev (w.handles.getD i none)).map
      (fun r => { ev := r.1, handles := w.handles.set i r.2 })

/-- The dispatch loop of Event notify.  At each iteration with live cursor c
the loop preloads nextCallback with the successor of c, invokes the callback
stored at c (which may mutate the channel through remove), and continues from
whatever nextCallback holds afterwards.  Fuel bounds the iteration count; the
wrapper supplies the list length, which suffices because the modelled callback
actions never insert. -/
def notifyLoop : Nat → Nat → Option Nat → World → Option (World × List TraceEntry)
  | _, _, none, w => some (w, [])
  | 0, _, some _, _ => none
  | fuel + 1, arg, some j, w =>
    (lookupCb w.ev.callbacks j).bind (fun cb =>
      (runAct cb.act
          { w with ev := { w.ev with nextCallback := succAfter w.ev.callbacks j } }).bind
        (fun w2 =>
          (notifyLoop fuel arg w2.ev.nextCallback w2).map
            (fun r => (r.1, (j, cb.label, arg) :: r.2))))

/-- Event notify: when enabled, walk the callback list from begin, then reset
the cursor to the end sentinel; when disabled, do nothing at all. -/
def Event.notify (w : World) (arg : Nat) : Option (World × List TraceEntry) :=
  if w.ev.enabled then
    (notifyLoop w.ev.callbacks.length arg (w.ev.callbacks.head?.map Prod.fst) w).map
      (fun r => ({ r.1 with ev := { r.1.ev with nextCallback := none } }, r.2))
  else
    some (w, [])

/-- setEnabled lifted to a world. -/
def World.setEnabled (w : World) (b : Bool) : World := { w with ev := w.ev.setEnabled b }

/-- ScopedDisable construction: remember the current enabled value and force
the channel to disabled. -/
def ScopedDisable.construct (e : Event) : Event × Bool := (e.setEnabled false, e.isEnabled)

/-- ScopedDisable destruction: restore the remembered value. -/
def ScopedDisable.destruct (e : Event) (prev : Bool) : Event := e.setEnabled prev

/-- A deferred Notifier: the value snapshot of the argument taken at
construction time (the source strips reference qualifiers from the stored
tuple, so a plain value is stored). -/
structure Notifier where
  snapshot : Nat
deriving DecidableEq

/-- makeNotifier reading the argument from a mutable variable store at the
given address: the notifier stores the value the variable has now. -/
def makeNotifierFromVar (store : Nat → Nat) (a : Nat) : Notifier := ⟨store a⟩

/-- Notifier trigger: a full notify of the channel with the stored snapshot. -/
def Notifier.trigger (n : Notifier) (w : World) : Option (World × List TraceEntry) :=
  Event.notify w n.snapshot

/-- A family of channels indexed by Nat, modelling the distinct Event objects
a ScopedCallbackID or a registry may refer to. -/
abbrev Chans := Nat → Event

/-- The implicitly generated copy assignment of Event, as executed by the
statement assigning one Event to another: the callback values are copied into
fresh nodes of the destination list, the enabled flag is copied, and the raw
cursor value is copied (an iterator still pointing into the source list).
Fresh node ids come from the destination's ghost allocator. -/
def copyAssignEvent (dst src : Event) : Event :=
  { callbacks := src.callbacks.enum.map (fun p => (dst.nextId + p.1, p.2.2)),
    enabled := src.enabled,
    nextCallback := src.nextCallback,
    nextId := dst.nextId + src.callbacks.length }

/-- A ScopedCallbackID: the channel it refers to (a reference member, fixed at
construction) and the handle of its subscription. -/
structure ScopedCallbackID where
  evIdx : Nat
  cb : Option Nat
deriving DecidableEq

/-- ScopedCallbackID construction: subscribe to the channel and keep the
resulting handle together with the channel reference. -/
def ScopedCallbackID.make (χ : Chans) (k : Nat) (c : Cb) (first : Bool) :
    Chans × ScopedCallbackID :=
  let r := Event.add (χ k) c first
  (Function.update χ k r.1, ⟨k, some r.2⟩)

/-- ScopedCallbackID destruction: remove the held handle from the referenced
channel. -/
def ScopedCallbackID.destruct (χ : Chans) (o : ScopedCallbackID) : Option Chans :=
  (Event.remove (χ o.evIdx) o.cb).map (fun r => Function.update χ o.evIdx r.1)

/-- ScopedCallbackID replace, exactly as the source executes it: first remove
the held handle from the referenced channel; then assign the target Event
through the reference member, which cannot rebind the reference and instead
runs Event copy assignment into the referenced channel object (a self
assignment when the target is the same channel); then add the new callback to
the referenced channel and keep the fresh handle.  The stored channel index is
unchanged because a reference member cannot be reseated. -/
def ScopedCallbackID.replace (χ : Chans) (o : ScopedCallbackID) (target : Nat)
    (c : Cb) (first : Bool) : Option (Chans × ScopedCallbackID) :=
  (Event.remove (χ o.evIdx) o.cb).map (fun r1 =>
    let χ1 := Function.update χ o.evIdx r1.1
    let e2 := if o.evIdx = target then χ1 o.evIdx
              else copyAssignEvent (χ1 o.evIdx) (χ1 target)
    let χ2 := Function.update χ1 o.evIdx e2
    let r3 := Event.add (χ2 o.evIdx) c first
    (Function.update χ2 o.evIdx r3.1, ⟨o.evIdx, some r3.2⟩))

/-- Destroy a sequence of owned ScopedCallbackID entries in order, as the
registry teardown does. -/
def destroyAll : Chans → List ScopedCallbackID → Option Chans
  | χ, [] => some χ
  | χ, o :: rest =>
    (ScopedCallbackID.destruct χ o).bind (fun χ1 => destroyAll χ1 rest)

/-- A ScopedCallbacksHolder: the owned subscription entries, in the order they
were added. -/
structure ScopedCallbacksHolder where
  owners : List ScopedCallbackID
deriving DecidableEq

/-- ScopedCallbacksHolder addCallback: construct a ScopedCallbackID bound to
the channel and store it at the back of the owned sequence. -/
def ScopedCallbacksHolder.addCallback (χ : Chans) (h : ScopedCallbacksHolder)
    (k : Nat) (c : Cb) (first : Bool) : Chans × ScopedCallbacksHolder :=
  let r := ScopedCallbackID.make χ k c first
  (r.1, ⟨h.owners ++ [r.2]⟩)

/-- ScopedCallbacksHolder removeAllCallbacks: destroy every owned entry,
leaving the holder empty.  The registry destructor performs the same walk. -/
def ScopedCallbacksHolder.removeAllCallbacks (χ : Chans) (h : ScopedCallbacksHolder) :
    Option (Chans × ScopedCallbacksHolder) :=
  (destroyAll χ h.owners).map (fun χ1 => (χ1, ⟨[]⟩))

/-- Apply a sequence of addCallback operations (channel index, callback,
front flag) through one holder. -/
def applyAddCallbacks : Chans → ScopedCallbacksHolder → List (Nat × Cb × Bool) →
    Chans × ScopedCallbacksHolder
  | χ, h, [] => (χ, h)
  | χ, h, (k, c, f) :: rest =>
    let r := ScopedCallbacksHolder.addCallback χ h k c f
    applyAddCallbacks r.1 r.2 rest

/-- An ObservableValue: the stored value and the internal channel (with its
handle store). -/
structure Value where
  t : Nat
  w : World
deriving DecidableEq

/-- Value notify: dispatch the internal channel with the stored value. -/
def Value.notify (v : Value) : Option (World × List TraceEntry) :=
  Event.notify v.w v.t

/-- Value set: assign the new value unconditionally, then notify. -/
def Value.set (v : Value) (x : Nat) : Option (Value × List TraceEntry) :=
  let v1 : Value := { v with t := x }
  (Value.notify v1).map (fun r => ({ v1 with w := r.1 }, r.2))

/-- Value get: return the stored value. -/
def Value.get (v : Value) : Nat := v.t

/-- One registration call for the ordering claim: add at the back or at the
front, with the given callback label. -/
inductive AddOp where
  | back : Nat → AddOp
  | front : Nat → AddOp
deriving DecidableEq

/-- Apply a sequence of add calls with pure callbacks to a channel. -/
def applyAdds : Event → List AddOp → Event
  | s, [] => s
  | s, AddOp.back l :: rest => applyAdds (Event.add s ⟨l, Act.pure⟩ false).1 rest
  | s, AddOp.front l :: rest => applyAdds (Event.add s ⟨l, Act.pure⟩ true).1 rest

/-- The labels of the front insertions, in call order. -/
def frontLabels : List AddOp → List Nat
  | [] => []
  | AddOp.back _ :: rest => frontLabels rest
  | AddOp.front l :: rest => l :: frontLabels rest

/-- The labels of the back insertions, in call order. -/
def backLabels : List AddOp → List Nat
  | [] => []
  | AddOp.back l :: rest => l :: backLabels rest
  | AddOp.front _ :: rest => backLabels rest

/-- A handle value is the end sentinel or refers to a live node of the list. -/
def optLive (l : List (Nat × Cb)) : Option Nat → Prop
  | none => True
  | some j => j ∈ Ids l

instance (l : List (Nat × Cb)) (h : Option Nat) : Decidable (optLive l h) :=
  match h with
  | none => isTrue trivial
  | some j => inferInstanceAs (Decidable (j ∈ Ids l))

/-- The live handle values of a handle store. -/
def somes (hs : List (Option Nat)) : List Nat := hs.filterMap id

/-- Well formed world: node ids are pairwise distinct, every handle variable
is the end sentinel or refers to a live node, and no two handle variables
refer to the same node (at most one owner per subscription). -/
def WF (w : World) : Prop :=
  (Ids w.ev.callbacks).Nodup ∧
  (∀ h ∈ w.handles, optLive w.ev.callbacks h) ∧
  (somes w.handles).Nodup

instance (w : World) : Decidable (WF w) := by
  unfold WF
  infer_instance

/-- All node ids of a channel are below its ghost allocator. -/
def idsBounded (e : Event) : Prop := ∀ j ∈ Ids e.callbacks, j < e.nextId

/-- Observable part of a channel: everything except the ghost allocator. -/
def obsEq (e e' : Event) : Prop :=
  e.callbacks = e'.callbacks ∧ e.enabled = e'.enabled ∧ e.nextCallback = e'.nextCallback

/-- The suffix of the list from an iterator value, empty at the sentinel. -/
def optSuffix (l : List (Nat × Cb)) : Option Nat → List (Nat × Cb)
  | none => []
  | some j => suffixFrom l j

/-- Insert a given node at the front or back and bump the allocator; this is
the effect of Event add with a chosen node. -/
def insCb (e : Event) (node : Nat × Cb) (first : Bool) : Event :=
  { e with callbacks := if first then node :: e.callbacks else e.callbacks ++ [node],
           nextId := e.nextId + 1 }

/-- Registry invariant tying the current channels and owned entries back to
the original channels: cursors are idle, allocators only grew, owned handles
are bounded by their channel's allocator, and destroying the owned entries in
order succeeds and restores every channel up to the ghost allocator. -/
def HolderInv (χ0 χ : Chans) (os : List ScopedCallbackID) : Prop :=
  (∀ i, (χ i).nextCallback = none) ∧
  (∀ i, (χ0 i).nextId ≤ (χ i).nextId) ∧
  (∀ o ∈ os, ∀ j, o.cb = some j → j < (χ o.evIdx).nextId) ∧
  ∃ χr, destroyAll χ os = some χr ∧ (∀ i, obsEq (χr i) (χ0 i)) ∧
    (∀ i, (χr i).nextId = (χ i).nextId)

/-- Sample world for the reentrant removal claim: three callbacks, the first
of which removes the not yet visited third one through handle 0. -/
def wC3 : World :=
  ⟨⟨[(0, ⟨10, Act.removeH 0⟩), (1, ⟨11, Act.pure⟩), (2, ⟨12, Act.pure⟩)], true, none, 3⟩,
   [some 2]⟩

/-- Sample channel with two live subscriptions. -/
def sC2 : Event := ⟨[(0, ⟨5, Act.pure⟩), (1, ⟨6, Act.pure⟩)], true, none, 2⟩

/-- Sample channel with one live subscription. -/
def sC10 : Event := ⟨[(0, ⟨5, Act.pure⟩)], true, none, 1⟩

/-- Sample world around sC10. -/
def wC10 : World := ⟨sC10, []⟩

/-- Sample observable value: stored value 5, one pure listener. -/
def vC9 : Value := ⟨5, ⟨⟨[(0, ⟨9, Act.pure⟩)], true, none, 1⟩, []⟩⟩

/-- Sample world with one pure listener for the deferred trigger claim. -/
def wC7 : World := ⟨⟨[(0, ⟨9, Act.pure⟩)], true, none, 1⟩, []⟩

/-- Channels for the ScopedCallbackID replace evaluation: channel 0 holds two
subscriptions (labels 10 and 11, the latter owned by the handle under test);
channel 1 holds one subscription (label 20). -/
def chC1 : Chans := fun i =>
  if i = 0 then ⟨[(0, ⟨10, Act.pure⟩), (1, ⟨11, Act.pure⟩)], true, none, 2⟩
  else if i = 1 then ⟨[(0, ⟨20, Act.pure⟩)], true, none, 1⟩
  else Event.new

end Picoevents

namespace Picoevents

@[simp]
theorem Ids_nil : Ids ([] : List (Nat × Cb)) = [] := rfl

@[simp]
theorem Ids_cons (p : Nat × Cb) (l : List (Nat × Cb)) : Ids (p :: l) = p.1 :: Ids l := rfl

@[simp]
theorem Ids_append (l l' : List (Nat × Cb)) : Ids (l ++ l') = Ids l ++ Ids l' := by
  simp [Ids]

theorem Ids_sublist {l' l : List (Nat × Cb)} (h : List.Sublist l' l) :
    List.Sublist (Ids l') (Ids l) := by
  simpa [Ids] using h.map Prod.fst

@[simp]
theorem Labels_nil : Labels ([] : List (Nat × Cb)) = [] := rfl

@[simp]
theorem Labels_cons (p : Nat × Cb) (l : List (Nat × Cb)) :
    Labels (p :: l) = p.2.label :: Labels l := rfl

theorem lookupCb_mem {l : List (Nat × Cb)} {j : Nat} {c : Cb}
    (h : lookupCb l j = some c) : (j, c) ∈ l := by
  induction l with
  | nil => simp [lookupCb] at h
  | cons p rest ih =>
    obtain ⟨a, b⟩ := p
    rw [lookupCb] at h
    by_cases hp : a = j
    · subst hp
      simp at h
      subst h
      exact List.mem_cons_self _ _
    · rw [if_neg hp] at h
      exact List.mem_cons_of_mem _ (ih h)

theorem mem_of_lookupCb {l : List (Nat × Cb)} {j : Nat} {c : Cb}
    (h : lookupCb l j = some c) : j ∈ Ids l := by
  have := lookupCb_mem h
  exact List.mem_map_of_mem Prod.fst this

theorem suffixFrom_sublist (l : List (Nat × Cb)) (j : Nat) : List.Sublist (suffixFrom l j) l := by
  induction l with
  | nil => exact List.Sublist.refl _
  | cons p rest ih =>
    rw [suffixFrom]
    by_cases hp : p.1 = j
    · rw [if_pos hp]
    · rw [if_neg hp]
      exact ih.cons p

theorem suffixFrom_of_mem {l : List (Nat × Cb)} {j : Nat} (h : j ∈ Ids l) :
    ∃ c rest, suffixFrom l j = (j, c) :: rest ∧
      succAfter l j = rest.head?.map Prod.fst ∧ lookupCb l j = some c := by
  induction l with
  | nil => simp [Ids] at h
  | cons p rest ih =>
    obtain ⟨a, b⟩ := p
    by_cases hp : a = j
    · subst hp
      exact ⟨b, rest, by rw [suffixFrom, if_pos rfl], by rw [succAfter, if_pos rfl],
        by rw [lookupCb, if_pos rfl]⟩
    · have h' : j ∈ Ids rest := by
        rcases List.mem_cons.mp h with h1 | h1
        · exact absurd h1.symm hp
        · exact h1
      obtain ⟨c, r, h1, h2, h3⟩ := ih h'
      exact ⟨c, r, by rw [suffixFrom, if_neg hp]; exact h1,
        by rw [succAfter, if_neg hp]; exact h2,
        by rw [lookupCb, if_neg hp]; exact h3⟩

theorem suffixFrom_head (p : Nat × Cb) (rest : List (Nat × Cb)) :
    suffixFrom (p :: rest) p.1 = p :: rest := by
  rw [suffixFrom, if_pos rfl]

theorem suffixFrom_mono {l' l : List (Nat × Cb)} {j : Nat}
    (h : List.Sublist l' l) (hnd : (Ids l).Nodup) (hm : j ∈ Ids l') :
    List.Sublist (suffixFrom l' j) (suffixFrom l j) := by
  induction h with
  | slnil => simp [Ids] at hm
  | cons p h ih =>
    have hj := (Ids_sublist h).subset hm
    rw [Ids_cons] at hnd
    have hnd' := List.nodup_cons.mp hnd
    have hne : p.1 ≠ j := fun he => hnd'.1 (he ▸ hj)
    rw [suffixFrom, if_neg hne]
    exact ih hnd'.2 hm
  | cons₂ p h ih =>
    rw [Ids_cons] at hnd
    have hnd' := List.nodup_cons.mp hnd
    by_cases hp : p.1 = j
    · rw [suffixFrom, if_pos hp, suffixFrom, if_pos hp]
      exact h.cons₂ p
    · rw [suffixFrom, if_neg hp, suffixFrom, if_neg hp]
      rw [Ids_cons] at hm
      rcases List.mem_cons.mp hm with h1 | h1
      · exact absurd h1.symm hp
      · exact ih hnd'.2 h1

theorem suffixFrom_tail_mem {l rest : List (Nat × Cb)} {j k : Nat} {q : Nat × Cb}
    (hnd : (Ids l).Nodup) (hsf : suffixFrom l j = q :: rest) (hk : k ∈ Ids rest) :
    suffixFrom l k = suffixFrom rest k := by
  induction l with
  | nil => simp [suffixFrom] at hsf
  | cons p t ih =>
    have hndt : p.1 ∉ Ids t ∧ (Ids t).Nodup := by
      rw [Ids_cons] at hnd
      exact List.nodup_cons.mp hnd
    by_cases hp : p.1 = j
    · rw [suffixFrom, if_pos hp] at hsf
      injection hsf with he1 he2
      subst he2
      have hne : p.1 ≠ k := fun he => hndt.1 (he ▸ hk)
      rw [suffixFrom, if_neg hne]
    · rw [suffixFrom, if_neg hp] at hsf
      have hmem : k ∈ Ids t := by
        have h1 : k ∈ Ids (q :: rest) := List.mem_cons_of_mem _ hk
        have h2 : Ids (q :: rest) ⊆ Ids t := by
          rw [← hsf]
          exact (Ids_sublist (suffixFrom_sublist t j)).subset
        exact h2 h1
      have hne : p.1 ≠ k := fun he => hndt.1 (he ▸ hmem)
      rw [suffixFrom, if_neg hne]
      exact ih hndt.2 hsf

theorem succAfter_mem {l : List (Nat × Cb)} {j k : Nat}
    (h : succAfter l j = some k) : k ∈ Ids l := by
  induction l with
  | nil => simp [succAfter] at h
  | cons p rest ih =>
    rw [succAfter] at h
    by_cases hp : p.1 = j
    · rw [if_pos hp] at h
      cases rest with
      | nil => simp at h
      | cons q r =>
        simp at h
        subst h
        exact List.mem_cons_of_mem _ (List.mem_cons_self _ _)
    · rw [if_neg hp] at h
      exact List.mem_cons_of_mem _ (ih h)

theorem suffixFrom_succ {l : List (Nat × Cb)} {j k : Nat}
    (hnd : (Ids l).Nodup) (hj : j ∈ Ids l) (hs : succAfter l j = some k) :
    k ∈ Ids ((suffixFrom l j).tail) ∧ suffixFrom l k = (suffixFrom l j).tail := by
  obtain ⟨c, rest, hsf, hsucc, _⟩ := suffixFrom_of_mem hj
  rw [hsucc] at hs
  cases rest with
  | nil => simp at hs
  | cons q r =>
    simp at hs
    have hk : k ∈ Ids (q :: r) := by
      rw [Ids_cons, hs]
      exact List.mem_cons_self _ _
    have h1 : suffixFrom l k = suffixFrom (q :: r) k := suffixFrom_tail_mem hnd hsf hk
    rw [hsf]
    simp only [List.tail_cons]
    exact ⟨hk, by rw [h1, suffixFrom, if_pos hs]⟩

theorem suffixFrom_succ_none {l : List (Nat × Cb)} {j : Nat}
    (hj : j ∈ Ids l) (hs : succAfter l j = none) :
    (suffixFrom l j).tail = [] := by
  obtain ⟨c, rest, hsf, hsucc, _⟩ := suffixFrom_of_mem hj
  rw [hsf]
  rw [hsucc] at hs
  cases rest with
  | nil => rfl
  | cons q r => simp at hs

theorem eraseId_sublist (l : List (Nat × Cb)) (j : Nat) : List.Sublist (eraseId l j) l := by
  induction l with
  | nil => exact List.Sublist.refl _
  | cons p rest ih =>
    rw [eraseId]
    by_cases hp : p.1 = j
    · rw [if_pos hp]
      exact (List.Sublist.refl rest).cons p
    · rw [if_neg hp]
      exact ih.cons₂ p

theorem mem_Ids_eraseId {l : List (Nat × Cb)} {j k : Nat}
    (hne : k ≠ j) (hk : k ∈ Ids l) : k ∈ Ids (eraseId l j) := by
  induction l with
  | nil => simp [Ids] at hk
  | cons p rest ih =>
    rw [eraseId]
    by_cases hp : p.1 = j
    · rw [if_pos hp]
      rcases List.mem_cons.mp hk with h1 | h1
      · exact absurd (h1.trans hp) hne
      · exact h1
    · rw [if_neg hp]
      rcases List.mem_cons.mp hk with h1 | h1
      · rw [Ids_cons, h1]
        exact List.mem_cons_self _ _
      · exact List.mem_cons_of_mem _ (ih h1)

theorem nodup_eraseId {l : List (Nat × Cb)} {j : Nat}
    (hnd : (Ids l).Nodup) : (Ids (eraseId l j)).Nodup :=
  hnd.sublist (Ids_sublist (eraseId_sublist l j))

theorem eraseId_append_left {l l2 : List (Nat × Cb)} {j : Nat} (h : j ∈ Ids l) :
    eraseId (l ++ l2) j = eraseId l j ++ l2 := by
  induction l with
  | nil => simp [Ids] at h
  | cons p rest ih =>
    rw [List.cons_append, eraseId, eraseId]
    by_cases hp : p.1 = j
    · rw [if_pos hp, if_pos hp]
    · rw [if_neg hp, if_neg hp, List.cons_append]
      congr 1
      apply ih
      rcases List.mem_cons.mp h with h1 | h1
      · exact absurd h1.symm hp
      · exact h1

theorem eraseId_not_mem {l : List (Nat × Cb)} {j : Nat} (h : j ∉ Ids l) :
    eraseId l j = l := by
  induction l with
  | nil => rfl
  | cons p rest ih =>
    rw [eraseId]
    have hp : p.1 ≠ j := fun he => h (by rw [Ids_cons, he]; exact List.mem_cons_self _ _)
    rw [if_neg hp]
    congr 1
    exact ih (fun hm => h (List.mem_cons_of_mem _ hm))

theorem eraseId_append_sentinel {l : List (Nat × Cb)} {j : Nat} {c : Cb}
    (h : j ∉ Ids l) : eraseId (l ++ [(j, c)]) j = l := by
  induction l with
  | nil => simp [eraseId]
  | cons p rest ih =>
    rw [List.cons_append, eraseId]
    have hp : p.1 ≠ j := fun he => h (by rw [Ids_cons, he]; exact List.mem_cons_self _ _)
    rw [if_neg hp]
    congr 1
    exact ih (fun hm => h (List.mem_cons_of_mem _ hm))

theorem Ids_writeAt (l : List (Nat × Cb)) (j : Nat) (c : Cb) :
    Ids (writeAt l j c) = Ids l := by
  induction l with
  | nil => rfl
  | cons p rest ih =>
    rw [writeAt]
    by_cases hp : p.1 = j
    · rw [if_pos hp]
      rfl
    · rw [if_neg hp, Ids_cons, Ids_cons, ih]

theorem lookupCb_writeAt_self {l : List (Nat × Cb)} {j : Nat} (c : Cb)
    (h : j ∈ Ids l) : lookupCb (writeAt l j c) j = some c := by
  induction l with
  | nil => simp [Ids] at h
  | cons p rest ih =>
    rw [writeAt]
    by_cases hp : p.1 = j
    · rw [if_pos hp, lookupCb, if_pos hp]
    · rw [if_neg hp, lookupCb, if_neg hp]
      apply ih
      rcases List.mem_cons.mp h with h1 | h1
      · exact absurd h1.symm hp
      · exact h1

theorem lookupCb_writeAt_ne {l : List (Nat × Cb)} {j k : Nat} (c : Cb)
    (h : k ≠ j) : lookupCb (writeAt l j c) k = lookupCb l k := by
  induction l with
  | nil => rfl
  | cons p rest ih =>
    rw [writeAt]
    by_cases hp : p.1 = j
    · rw [if_pos hp]
      have hnk : p.1 ≠ k := fun he => h (he.symm.trans hp)
      simp only [lookupCb]
      rw [if_neg hnk, if_neg hnk]
    · rw [if_neg hp]
      simp only [lookupCb]
      by_cases hk : p.1 = k
      · rw [if_pos hk, if_pos hk]
      · rw [if_neg hk, if_neg hk, ih]

@[simp]
theorem somes_nil : somes [] = [] := rfl

@[simp]
theorem somes_cons_none (t : List (Option Nat)) : somes (none :: t) = somes t := rfl

@[simp]
theorem somes_cons_some (x : Nat) (t : List (Option Nat)) :
    somes (some x :: t) = x :: somes t := rfl

theorem getD_some_mem {hs : List (Option Nat)} {i k : Nat}
    (h : hs.getD i none = some k) : some k ∈ hs := by
  induction hs generalizing i with
  | nil => simp [List.getD] at h
  | cons x t ih =>
    cases i with
    | zero => rw [List.getD_cons_zero] at h; rw [h]; exact List.mem_cons_self _ _
    | succ n =>
      rw [List.getD_cons_succ] at h
      exact List.mem_cons_of_mem _ (ih h)

theorem mem_somes {hs : List (Option Nat)} {k : Nat} (h : some k ∈ hs) : k ∈ somes hs := by
  rw [somes, List.mem_filterMap]
  exact ⟨some k, h, rfl⟩

theorem somes_set_none_sublist (hs : List (Option Nat)) (i : Nat) :
    List.Sublist (somes (hs.set i none)) (somes hs) := by
  induction hs generalizing i with
  | nil => exact List.Sublist.refl _
  | cons x t ih =>
    cases i with
    | zero =>
      rw [List.set_cons_zero]
      cases x with
      | none => exact List.Sublist.refl _
      | some v => rw [somes_cons_none, somes_cons_some]; exact (List.Sublist.refl _).cons v
    | succ n =>
      rw [List.set_cons_succ]
      cases x with
      | none => exact ih n
      | some v => exact (ih n).cons₂ v

theorem set_none_mem {hs : List (Option Nat)} {i k : Nat}
    (hget : hs.getD i none = some k) (hnd : (somes hs).Nodup) :
    ∀ h' ∈ hs.set i none, ∀ k', h' = some k' → k' ≠ k ∧ some k' ∈ hs := by
  induction hs generalizing i with
  | nil => intro h' hm; simp at hm
  | cons x t ih =>
    cases i with
    | zero =>
      rw [List.getD_cons_zero] at hget
      subst hget
      rw [List.set_cons_zero]
      intro h' hm k' hk'
      rcases List.mem_cons.mp hm with h1 | h1
      · rw [hk'] at h1; exact absurd h1.symm (by simp)
      · subst hk'
        refine ⟨?_, List.mem_cons_of_mem _ h1⟩
        have hk'm : k' ∈ somes t := mem_somes h1
        rw [somes_cons_some] at hnd
        intro he
        exact (List.nodup_cons.mp hnd).1 (he ▸ hk'm)
    | succ n =>
      rw [List.getD_cons_succ] at hget
      rw [List.set_cons_succ]
      intro h' hm k' hk'
      rcases List.mem_cons.mp hm with h1 | h1
      · have hx : x = some k' := by rw [← h1, hk']
        subst hx
        refine ⟨?_, List.mem_cons_self _ _⟩
        have hkm : k ∈ somes t := mem_somes (getD_some_mem hget)
        rw [somes_cons_some] at hnd
        intro he
        apply (List.nodup_cons.mp hnd).1
        rw [he]
        exact hkm
      · have hnd' : (somes t).Nodup := by
          cases x with
          | none => rw [somes_cons_none] at hnd; exact hnd
          | some v => rw [somes_cons_some] at hnd; exact (List.nodup_cons.mp hnd).2
        obtain ⟨hne, hmem⟩ := ih hget hnd' h' h1 k' hk'
        exact ⟨hne, List.mem_cons_of_mem _ hmem⟩

theorem remove_none (s : Event) : Event.remove s none = some (s, none) := rfl

theorem remove_live_noguard {s : Event} {j : Nat}
    (hj : j ∈ Ids s.callbacks) (hg : s.nextCallback ≠ some j) :
    Event.remove s (some j) = some ({ s with callbacks := eraseId s.callbacks j }, none) := by
  simp only [Event.remove]
  rw [if_pos hj, if_neg hg]

theorem remove_live_guard {s : Event} {j : Nat}
    (hj : j ∈ Ids s.callbacks) (hg : s.nextCallback = some j) :
    Event.remove s (some j) =
      some ({ s with callbacks := eraseId s.callbacks j,
                     nextCallback := succAfter s.callbacks j }, none) := by
  simp only [Event.remove]
  rw [if_pos hj, if_pos hg]

theorem remove_stale {s : Event} {j : Nat} (hj : j ∉ Ids s.callbacks) :
    Event.remove s (some j) = none := by
  simp only [Event.remove]
  rw [if_neg hj]

theorem remove_sub {s : Event} {c : Option Nat} {r : Event × Option Nat}
    (h : Event.remove s c = some r) : List.Sublist r.1.callbacks s.callbacks := by
  cases c with
  | none =>
    rw [remove_none] at h
    injection h with h'
    subst h'
    exact List.Sublist.refl _
  | some j =>
    by_cases hj : j ∈ Ids s.callbacks
    · by_cases hg : s.nextCallback = some j
      · rw [remove_live_guard hj hg] at h
        injection h with h'
        subst h'
        exact eraseId_sublist _ _
      · rw [remove_live_noguard hj hg] at h
        injection h with h'
        subst h'
        exact eraseId_sublist _ _
    · rw [remove_stale hj] at h
      cases h

theorem remove_pres {s : Event} {c : Option Nat} {r : Event × Option Nat}
    (h : Event.remove s c = some r) :
    r.1.enabled = s.enabled ∧ r.1.nextId = s.nextId ∧ r.2 = none := by
  cases c with
  | none =>
    rw [remove_none] at h
    injection h with h'
    subst h'
    exact ⟨rfl, rfl, rfl⟩
  | some j =>
    by_cases hj : j ∈ Ids s.callbacks
    · by_cases hg : s.nextCallback = some j
      · rw [remove_live_guard hj hg] at h
        injection h with h'
        subst h'
        exact ⟨rfl, rfl, rfl⟩
      · rw [remove_live_noguard hj hg] at h
        injection h with h'
        subst h'
        exact ⟨rfl, rfl, rfl⟩
    · rw [remove_stale hj] at h
      cases h

theorem remove_cursor_none {s : Event} {c : Option Nat} {r : Event × Option Nat}
    (hcur : s.nextCallback = none) (h : Event.remove s c = some r) :
    r.1.nextCallback = none := by
  cases c with
  | none =>
    rw [remove_none] at h
    injection h with h'
    subst h'
    exact hcur
  | some j =>
    by_cases hj : j ∈ Ids s.callbacks
    · have hg : s.nextCallback ≠ some j := by rw [hcur]; exact fun he => Option.noConfusion he
      rw [remove_live_noguard hj hg] at h
      injection h with h'
      subst h'
      exact hcur
    · rw [remove_stale hj] at h
      cases h

theorem set_none_cases {hs : List (Option Nat)} {i : Nat} {h' : Option Nat}
    (hm : h' ∈ hs.set i none) : h' = none ∨ h' ∈ hs := by
  induction hs generalizing i with
  | nil => simp at hm
  | cons x t ih =>
    cases i with
    | zero =>
      rw [List.set_cons_zero] at hm
      rcases List.mem_cons.mp hm with h1 | h1
      · exact Or.inl h1
      · exact Or.inr (List.mem_cons_of_mem _ h1)
    | succ n =>
      rw [List.set_cons_succ] at hm
      rcases List.mem_cons.mp hm with h1 | h1
      · exact Or.inr (h1 ▸ List.mem_cons_self _ _)
      · rcases ih h1 with h2 | h2
        · exact Or.inl h2
        · exact Or.inr (List.mem_cons_of_mem _ h2)

theorem runAct_pure_eq (w : World) : runAct Act.pure w = some w := rfl

theorem runAct_removeH_eq {w : World} {i : Nat} {r : Event × Option Nat}
    (h : Event.remove w.ev (w.handles.getD i none) = some r) :
    runAct (Act.removeH i) w = some { ev := r.1, handles := w.handles.set i r.2 } := by
  rw [runAct, h]
  rfl

theorem runAct_sub {a : Act} {w w' : World} (h : runAct a w = some w') :
    List.Sublist w'.ev.callbacks w.ev.callbacks := by
  cases a with
  | pure =>
    injection h with h'
    subst h'
    exact List.Sublist.refl _
  | removeH i =>
    rw [runAct] at h
    rcases Option.map_eq_some'.mp h with ⟨r, hr, hw⟩
    subst hw
    exact remove_sub hr

/-- One iteration body of the dispatch loop: with distinct node ids, live and
unaliased handles, and a live current node j, running the callback body after
preloading the cursor succeeds and preserves the invariants; the resulting
cursor is live or the sentinel and lies strictly inside the tail of the
suffix at j. -/
theorem runAct_step {w : World} {j : Nat} (c : Cb)
    (hnd : (Ids w.ev.callbacks).Nodup)
    (hh : ∀ h ∈ w.handles, optLive w.ev.callbacks h)
    (hhd : (somes w.handles).Nodup)
    (hj : j ∈ Ids w.ev.callbacks) :
    ∃ w2, runAct c.act
        { w with ev := { w.ev with nextCallback := succAfter w.ev.callbacks j } } = some w2 ∧
      List.Sublist w2.ev.callbacks w.ev.callbacks ∧
      (Ids w2.ev.callbacks).Nodup ∧
      (∀ h ∈ w2.handles, optLive w2.ev.callbacks h) ∧
      (somes w2.handles).Nodup ∧
      optLive w2.ev.callbacks w2.ev.nextCallback ∧
      (∀ k, w2.ev.nextCallback = some k → k ∈ Ids ((suffixFrom w.ev.callbacks j).tail)) ∧
      w2.ev.enabled = w.ev.enabled ∧ w2.ev.nextId = w.ev.nextId := by
  cases hact : c.act with
  | pure =>
    refine ⟨_, runAct_pure_eq _, List.Sublist.refl _, hnd, hh, hhd, ?_, ?_, rfl, rfl⟩
    · show optLive w.ev.callbacks (succAfter w.ev.callbacks j)
      cases heq : succAfter w.ev.callbacks j with
      | none => trivial
      | some k => exact succAfter_mem heq
    · intro k hk
      exact (suffixFrom_succ hnd hj hk).1
  | removeH i =>
    cases hh0 : w.handles.getD i none with
    | none =>
      have hrm : Event.remove ({ w.ev with nextCallback := succAfter w.ev.callbacks j })
          (w.handles.getD i none)
          = some ({ w.ev with nextCallback := succAfter w.ev.callbacks j }, none) := by
        rw [hh0]
        exact remove_none _
      refine ⟨{ ev := { w.ev with nextCallback := succAfter w.ev.callbacks j },
                handles := w.handles.set i none },
              runAct_removeH_eq hrm, List.Sublist.refl _, hnd, ?_,
              hhd.sublist (somes_set_none_sublist w.handles i), ?_, ?_, rfl, rfl⟩
      · intro h' hm
        rcases set_none_cases hm with h1 | h1
        · rw [h1]; trivial
        · exact hh h' h1
      · show optLive w.ev.callbacks (succAfter w.ev.callbacks j)
        cases heq : succAfter w.ev.callbacks j with
        | none => trivial
        | some k => exact succAfter_mem heq
      · intro k hk
        exact (suffixFrom_succ hnd hj hk).1
    | some k =>
      have hkmem : some k ∈ w.handles := getD_some_mem hh0
      have hk : k ∈ Ids w.ev.callbacks := hh _ hkmem
      by_cases hg : succAfter w.ev.callbacks j = some k
      · have hrm : Event.remove ({ w.ev with nextCallback := succAfter w.ev.callbacks j })
            (w.handles.getD i none)
            = some ({ w.ev with
                      callbacks := eraseId w.ev.callbacks k,
                      nextCallback := succAfter w.ev.callbacks k }, none) := by
          rw [hh0]
          exact remove_live_guard
            (s := { w.ev with nextCallback := succAfter w.ev.callbacks j }) hk hg
        refine ⟨{ ev := { w.ev with
                          callbacks := eraseId w.ev.callbacks k,
                          nextCallback := succAfter w.ev.callbacks k },
                  handles := w.handles.set i none },
                runAct_removeH_eq hrm, eraseId_sublist _ _, nodup_eraseId hnd, ?_,
                hhd.sublist (somes_set_none_sublist w.handles i), ?_, ?_, rfl, rfl⟩
        · intro h' hm
          cases h' with
          | none => trivial
          | some k' =>
            obtain ⟨hne, hmem⟩ := set_none_mem hh0 hhd _ hm k' rfl
            exact mem_Ids_eraseId hne (hh _ hmem)
        · show optLive (eraseId w.ev.callbacks k) (succAfter w.ev.callbacks k)
          cases heq : succAfter w.ev.callbacks k with
          | none => trivial
          | some k2 =>
            have hk2 : k2 ∈ Ids w.ev.callbacks := succAfter_mem heq
            have hk2tail : k2 ∈ Ids ((suffixFrom w.ev.callbacks k).tail) :=
              (suffixFrom_succ hnd hk heq).1
            obtain ⟨ck, restk, hsfk, _, _⟩ := suffixFrom_of_mem hk
            have hndk : (Ids (suffixFrom w.ev.callbacks k)).Nodup :=
              hnd.sublist (Ids_sublist (suffixFrom_sublist _ _))
            rw [hsfk] at hndk hk2tail
            rw [Ids_cons] at hndk
            have hne : k2 ≠ k := by
              intro he
              exact (List.nodup_cons.mp hndk).1 (he ▸ hk2tail)
            exact mem_Ids_eraseId hne hk2
        · intro k2 hk2eq
          have heq : succAfter w.ev.callbacks k = some k2 := hk2eq
          rw [← (suffixFrom_succ hnd hj hg).2]
          have h2 : k2 ∈ Ids ((suffixFrom w.ev.callbacks k).tail) :=
            (suffixFrom_succ hnd hk heq).1
          exact (Ids_sublist (List.tail_sublist _)).subset h2
      · have hg' : ({ w.ev with nextCallback := succAfter w.ev.callbacks j } : Event).nextCallback
            ≠ some k := hg
        have hrm : Event.remove ({ w.ev with nextCallback := succAfter w.ev.callbacks j })
            (w.handles.getD i none)
            = some ({ w.ev with
                      callbacks := eraseId w.ev.callbacks k,
                      nextCallback := succAfter w.ev.callbacks j }, none) := by
          rw [hh0]
          exact remove_live_noguard
            (s := { w.ev with nextCallback := succAfter w.ev.callbacks j }) hk hg'
        refine ⟨{ ev := { w.ev with
                          callbacks := eraseId w.ev.callbacks k,
                          nextCallback := succAfter w.ev.callbacks j },
                  handles := w.handles.set i none },
                runAct_removeH_eq hrm, eraseId_sublist _ _, nodup_eraseId hnd, ?_,
                hhd.sublist (somes_set_none_sublist w.handles i), ?_, ?_, rfl, rfl⟩
        · intro h' hm
          cases h' with
          | none => trivial
          | some k' =>
            obtain ⟨hne, hmem⟩ := set_none_mem hh0 hhd _ hm k' rfl
            exact mem_Ids_eraseId hne (hh _ hmem)
        · show optLive (eraseId w.ev.callbacks k) (succAfter w.ev.callbacks j)
          cases heq : succAfter w.ev.callbacks j with
          | none => trivial
          | some k2 =>
            have hne : k2 ≠ k := fun he => hg (he ▸ heq)
            exact mem_Ids_eraseId hne (succAfter_mem heq)
        · intro k2 hk2eq
          have heq : succAfter w.ev.callbacks j = some k2 := hk2eq
          exact (suffixFrom_succ hnd hj heq).1

theorem notifyLoop_none_eq (fuel arg : Nat) (w : World) :
    notifyLoop fuel arg none w = some (w, []) := by
  cases fuel with
  | zero => rfl
  | succ n => rfl

theorem notifyLoop_succ_eq {fuel arg j : Nat} {w : World} {cb : Cb} {w2 : World}
    {res : World × List TraceEntry}
    (hlook : lookupCb w.ev.callbacks j = some cb)
    (hrun : runAct cb.act
      { w with ev := { w.ev with nextCallback := succAfter w.ev.callbacks j } } = some w2)
    (hloop : notifyLoop fuel arg w2.ev.nextCallback w2 = some res) :
    notifyLoop (fuel + 1) arg (some j) w = some (res.1, (j, cb.label, arg) :: res.2) := by
  rw [notifyLoop, hlook, Option.some_bind, hrun, Option.some_bind, hloop, Option.map_some']

/-- Node ids appearing in a dispatch suffix are node ids of the list. -/
theorem optSuffix_subset (l : List (Nat × Cb)) (c : Option Nat) :
    Ids (optSuffix l c) ⊆ Ids l := by
  cases c with
  | none => intro x hx; cases hx
  | some j => exact (Ids_sublist (suffixFrom_sublist l j)).subset

/-- Main safety invariant of the dispatch loop: starting from a well formed
world at a live-or-sentinel cursor with enough fuel, the walk completes (no
undefined behavior), only removes nodes, preserves well formedness, visits
only nodes of the suffix at the cursor, never invokes the same node twice,
and passes the argument unchanged to every callback. -/
theorem notifyLoop_ok (fuel : Nat) :
    ∀ (arg : Nat) (c : Option Nat) (w : World),
    (Ids w.ev.callbacks).Nodup →
    (∀ h ∈ w.handles, optLive w.ev.callbacks h) →
    (somes w.handles).Nodup →
    optLive w.ev.callbacks c →
    (optSuffix w.ev.callbacks c).length ≤ fuel →
    ∃ w' tr, notifyLoop fuel arg c w = some (w', tr) ∧
      List.Sublist w'.ev.callbacks w.ev.callbacks ∧
      (Ids w'.ev.callbacks).Nodup ∧
      (∀ h ∈ w'.handles, optLive w'.ev.callbacks h) ∧
      (somes w'.handles).Nodup ∧
      (∀ e ∈ tr, e.1 ∈ Ids (optSuffix w.ev.callbacks c)) ∧
      (tr.map (fun e : TraceEntry => e.1)).Nodup ∧
      (∀ e ∈ tr, e.2.2 = arg) ∧
      w'.ev.enabled = w.ev.enabled ∧ w'.ev.nextId = w.ev.nextId := by
  induction fuel with
  | zero =>
    intro arg c w hnd hh hhd hc hm
    cases c with
    | none =>
      exact ⟨w, [], notifyLoop_none_eq _ _ _, List.Sublist.refl _, hnd, hh, hhd,
        fun e he => absurd he (List.not_mem_nil e), by simp,
        fun e he => absurd he (List.not_mem_nil e), rfl, rfl⟩
    | some j =>
      exfalso
      have hj : j ∈ Ids w.ev.callbacks := hc
      obtain ⟨c0, rest, hsf, _, _⟩ := suffixFrom_of_mem hj
      have hmj : (suffixFrom w.ev.callbacks j).length ≤ 0 := hm
      rw [hsf] at hmj
      simp at hmj
  | succ fuel ih =>
    intro arg c w hnd hh hhd hc hm
    cases c with
    | none =>
      exact ⟨w, [], notifyLoop_none_eq _ _ _, List.Sublist.refl _, hnd, hh, hhd,
        fun e he => absurd he (List.not_mem_nil e), by simp,
        fun e he => absurd he (List.not_mem_nil e), rfl, rfl⟩
    | some j =>
      have hj : j ∈ Ids w.ev.callbacks := hc
      obtain ⟨cb0, rest, hsf, hsucc, hlook⟩ := suffixFrom_of_mem hj
      obtain ⟨w2, hrun, hsub2, hnd2, hh2, hhd2, hcur2, hreg2, hen2, hni2⟩ :=
        runAct_step cb0 hnd hh hhd hj
      have hmj : (suffixFrom w.ev.callbacks j).length ≤ fuel + 1 := hm
      have hrest : rest.length ≤ fuel := by
        rw [hsf] at hmj
        simp only [List.length_cons] at hmj
        omega
      have hregrest : ∀ k, w2.ev.nextCallback = some k → k ∈ Ids rest := by
        intro k hkc
        have h1 := hreg2 k hkc
        rw [hsf] at h1
        simpa using h1
      have hm2 : (optSuffix w2.ev.callbacks w2.ev.nextCallback).length ≤ fuel := by
        cases hc2 : w2.ev.nextCallback with
        | none => simp [optSuffix]
        | some k =>
          have hk2 : k ∈ Ids w2.ev.callbacks := by
            have h1 := hcur2
            rw [hc2] at h1
            exact h1
          have hkrest : k ∈ Ids rest := hregrest k hc2
          have hs1 : List.Sublist (suffixFrom w2.ev.callbacks k)
              (suffixFrom w.ev.callbacks k) := suffixFrom_mono hsub2 hnd hk2
          have hs2 : suffixFrom w.ev.callbacks k = suffixFrom rest k :=
            suffixFrom_tail_mem hnd hsf hkrest
          have hlen : (suffixFrom w2.ev.callbacks k).length ≤ rest.length := by
            calc (suffixFrom w2.ev.callbacks k).length
                ≤ (suffixFrom w.ev.callbacks k).length := hs1.length_le
              _ = (suffixFrom rest k).length := by rw [hs2]
              _ ≤ rest.length := (suffixFrom_sublist rest k).length_le
          exact le_trans hlen hrest
      obtain ⟨w', tr, hloop, hsub', hnd', hh', hhd', hregtr, hndtr, hargs, hen', hni'⟩ :=
        ih arg w2.ev.nextCallback w2 hnd2 hh2 hhd2 hcur2 hm2
      have htr_rest : ∀ e ∈ tr, e.1 ∈ Ids rest := by
        intro e he
        have h1 := hregtr e he
        cases hc2 : w2.ev.nextCallback with
        | none =>
          rw [hc2] at h1
          cases h1
        | some k =>
          rw [hc2] at h1
          have hk2 : k ∈ Ids w2.ev.callbacks := by
            have h2 := hcur2
            rw [hc2] at h2
            exact h2
          have hkrest : k ∈ Ids rest := hregrest k hc2
          have hs1 := suffixFrom_mono hsub2 hnd hk2
          have hs2 := suffixFrom_tail_mem hnd hsf hkrest
          have h3 : e.1 ∈ Ids (suffixFrom rest k) := by
            rw [← hs2]
            exact (Ids_sublist hs1).subset h1
          exact (Ids_sublist (suffixFrom_sublist rest k)).subset h3
      have hjnotrest : j ∉ Ids rest := by
        have hnds : (Ids (suffixFrom w.ev.callbacks j)).Nodup :=
          hnd.sublist (Ids_sublist (suffixFrom_sublist _ _))
        rw [hsf, Ids_cons] at hnds
        exact (List.nodup_cons.mp hnds).1
      refine ⟨w', (j, cb0.label, arg) :: tr,
        notifyLoop_succ_eq hlook hrun hloop,
        hsub'.trans hsub2, hnd', hh', hhd', ?_, ?_, ?_,
        hen'.trans hen2, hni'.trans hni2⟩
      · intro e he
        show e.1 ∈ Ids (suffixFrom w.ev.callbacks j)
        rw [hsf, Ids_cons]
        rcases List.mem_cons.mp he with h1 | h1
        · rw [h1]
          exact List.mem_cons_self _ _
        · exact List.mem_cons_of_mem _ (htr_rest e h1)
      · rw [List.map_cons]
        rw [List.nodup_cons]
        constructor
        · intro hmem
          rcases List.mem_map.mp hmem with ⟨e, he, hej⟩
          have hej' : e.1 = j := hej
          exact hjnotrest (hej' ▸ htr_rest e he)
        · exact hndtr
      · intro e he
        rcases List.mem_cons.mp he with h1 | h1
        · rw [h1]
        · exact hargs e h1

/-- Once a node has been removed from the callback list, the remainder of the
dispatch never invokes it: the walk only looks up nodes of the current list,
and the modelled callback actions never insert. -/
theorem notifyLoop_skips_removed (fuel : Nat) :
    ∀ (arg : Nat) (c : Option Nat) (w w' : World) (tr : List TraceEntry) (j : Nat),
    j ∉ Ids w.ev.callbacks → notifyLoop fuel arg c w = some (w', tr) →
    ∀ e ∈ tr, e.1 ≠ j := by
  induction fuel with
  | zero =>
    intro arg c w w' tr j hj h
    cases c with
    | none =>
      rw [notifyLoop_none_eq] at h
      injection h with h1
      injection h1 with h1a h1b
      subst h1b
      intro e he
      cases he
    | some j' =>
      rw [notifyLoop] at h
      cases h
  | succ fuel ih =>
    intro arg c w w' tr j hj h
    cases c with
    | none =>
      rw [notifyLoop_none_eq] at h
      injection h with h1
      injection h1 with h1a h1b
      subst h1b
      intro e he
      cases he
    | some j' =>
      rw [notifyLoop] at h
      cases hlook : lookupCb w.ev.callbacks j' with
      | none =>
        rw [hlook, Option.none_bind] at h
        cases h
      | some cb =>
        rw [hlook, Option.some_bind] at h
        cases hrun : runAct cb.act
            { w with ev := { w.ev with nextCallback := succAfter w.ev.callbacks j' } } with
        | none =>
          rw [hrun, Option.none_bind] at h
          cases h
        | some w2 =>
          rw [hrun, Option.some_bind] at h
          cases hloop : notifyLoop fuel arg w2.ev.nextCallback w2 with
          | none =>
            rw [hloop, Option.map_none'] at h
            cases h
          | some res =>
            rw [hloop, Option.map_some'] at h
            injection h with h1
            injection h1 with h1a h1b
            subst h1b
            intro e he
            rcases List.mem_cons.mp he with h2 | h2
            · rw [h2]
              intro hcon
              exact hj (hcon ▸ mem_of_lookupCb hlook)
            · have hj2 : j ∉ Ids w2.ev.callbacks :=
                fun hmem => hj ((Ids_sublist (runAct_sub hrun)).subset hmem)
              exact ih arg w2.ev.nextCallback w2 res.1 res.2 j hj2 (by rw [hloop]) e h2

theorem notify_eq_of_loop {w : World} {arg : Nat} {res : World × List TraceEntry}
    (hen : w.ev.enabled = true)
    (h : notifyLoop w.ev.callbacks.length arg (w.ev.callbacks.head?.map Prod.fst) w
      = some res) :
    Event.notify w arg =
      some ({ res.1 with ev := { res.1.ev with nextCallback := none } }, res.2) := by
  rw [Event.notify, if_pos hen, h, Option.map_some']

theorem notify_disabled {w : World} {arg : Nat} (h : w.ev.enabled = false) :
    Event.notify w arg = some (w, []) := by
  unfold Event.notify
  rw [h]
  simp

/-- A notify on a channel from which a node has been removed never invokes
that node. -/
theorem notify_skips_removed {w : World} {arg : Nat} {w' : World} {tr : List TraceEntry}
    {j : Nat} (hj : j ∉ Ids w.ev.callbacks) (h : Event.notify w arg = some (w', tr)) :
    ∀ e ∈ tr, e.1 ≠ j := by
  by_cases hen : w.ev.enabled = true
  · rw [Event.notify, if_pos hen] at h
    cases hloop : notifyLoop w.ev.callbacks.length arg (w.ev.callbacks.head?.map Prod.fst) w with
    | none =>
      rw [hloop, Option.map_none'] at h
      cases h
    | some res =>
      rw [hloop, Option.map_some'] at h
      injection h with h1
      injection h1 with h1a h1b
      subst h1b
      exact notifyLoop_skips_removed _ arg _ w res.1 res.2 j hj (by rw [hloop])
  · have hdis : w.ev.enabled = false := by
      simpa using hen
    rw [notify_disabled hdis] at h
    injection h with h1
    injection h1 with h1a h1b
    subst h1b
    intro e he
    cases he

/-- Claim C3: a dispatch during which callbacks remove their own handle, an
already visited handle, or a not yet visited handle completes without
touching removed state (the model reports undefined behavior as none, and the
result here is some), invokes no node twice, invokes only nodes that were
registered when the dispatch started, only removes nodes, preserves well
formedness, and a node absent from the list at any point of the dispatch, or
after it, is not invoked in the remainder of that dispatch nor by a
subsequent notify. -/
theorem C3_reentrant_removal (w : World) (arg : Nat) (hwf : WF w) :
    ∃ w' tr, Event.notify w arg = some (w', tr) ∧
      (tr.map (fun e : TraceEntry => e.1)).Nodup ∧
      (∀ e ∈ tr, e.1 ∈ Ids w.ev.callbacks) ∧
      List.Sublist w'.ev.callbacks w.ev.callbacks ∧
      WF w' ∧
      (∀ j, j ∉ Ids w'.ev.callbacks →
        ∀ arg' w'' tr', Event.notify w' arg' = some (w'', tr') → ∀ e ∈ tr', e.1 ≠ j) ∧
      (∀ (fuel : Nat) (c : Option Nat) (w1 w2 : World) (tr1 : List TraceEntry) (j : Nat),
        j ∉ Ids w1.ev.callbacks → notifyLoop fuel arg c w1 = some (w2, tr1) →
        ∀ e ∈ tr1, e.1 ≠ j) := by
  obtain ⟨hnd, hh, hhd⟩ := hwf
  by_cases hen : w.ev.enabled = true
  · have hcm : optLive w.ev.callbacks (w.ev.callbacks.head?.map Prod.fst) ∧
        (optSuffix w.ev.callbacks (w.ev.callbacks.head?.map Prod.fst)).length
          ≤ w.ev.callbacks.length := by
      cases hcb : w.ev.callbacks with
      | nil => exact ⟨trivial, by simp [optSuffix]⟩
      | cons p rest =>
        constructor
        · show p.1 ∈ Ids (p :: rest)
          rw [Ids_cons]
          exact List.mem_cons_self _ _
        · show (optSuffix (p :: rest) (some p.1)).length ≤ (p :: rest).length
          rw [optSuffix, suffixFrom_head]
    obtain ⟨w', tr, hloop, hsub, hnd', hh', hhd', hreg, hndtr, hargs, hen', hni'⟩ :=
      notifyLoop_ok _ arg _ w hnd hh hhd hcm.1 hcm.2
    refine ⟨{ w' with ev := { w'.ev with nextCallback := none } }, tr,
      notify_eq_of_loop hen hloop, hndtr, ?_, hsub, ⟨hnd', hh', hhd'⟩, ?_, ?_⟩
    · intro e he
      exact optSuffix_subset _ _ (hreg e he)
    · intro j hj arg' w'' tr' hnot
      exact notify_skips_removed hj hnot
    · intro fuel c w1 w2 tr1 j hj h
      exact notifyLoop_skips_removed fuel arg c w1 w2 tr1 j hj h
  · have hdis : w.ev.enabled = false := by simpa using hen
    refine ⟨w, [], notify_disabled hdis, by simp,
      fun e he => absurd he (List.not_mem_nil e), List.Sublist.refl _, ⟨hnd, hh, hhd⟩, ?_, ?_⟩
    · intro j hj arg' w'' tr' hnot
      exact notify_skips_removed hj hnot
    · intro fuel c w1 w2 tr1 j hj h
      exact notifyLoop_skips_removed fuel arg c w1 w2 tr1 j hj h

@[simp]
theorem Labels_append (l l2 : List (Nat × Cb)) : Labels (l ++ l2) = Labels l ++ Labels l2 := by
  simp [Labels]

theorem optLive_head (l : List (Nat × Cb)) : optLive l (l.head?.map Prod.fst) := by
  cases l with
  | nil => trivial
  | cons p rest =>
    show p.1 ∈ Ids (p :: rest)
    rw [Ids_cons]
    exact List.mem_cons_self _ _

theorem optSuffix_head (l : List (Nat × Cb)) : optSuffix l (l.head?.map Prod.fst) = l := by
  cases l with
  | nil => rfl
  | cons p rest =>
    show optSuffix (p :: rest) (some p.1) = p :: rest
    rw [optSuffix, suffixFrom_head]

/-- With only pure callbacks, the dispatch loop from any live cursor visits
exactly the suffix at the cursor, in list order, passing the argument to each
callback, and leaves the list, the handles, the flag and the allocator
unchanged. -/
theorem notifyLoop_pure (fuel : Nat) :
    ∀ (arg : Nat) (c : Option Nat) (w : World),
    (∀ p ∈ w.ev.callbacks, p.2.act = Act.pure) →
    (Ids w.ev.callbacks).Nodup →
    optLive w.ev.callbacks c →
    (optSuffix w.ev.callbacks c).length ≤ fuel →
    ∃ w', notifyLoop fuel arg c w =
        some (w', (optSuffix w.ev.callbacks c).map (fun p => (p.1, p.2.label, arg))) ∧
      w'.ev.callbacks = w.ev.callbacks ∧ w'.handles = w.handles ∧
      w'.ev.enabled = w.ev.enabled ∧ w'.ev.nextId = w.ev.nextId := by
  induction fuel with
  | zero =>
    intro arg c w hp hnd hc hm
    cases c with
    | none =>
      refine ⟨w, ?_, rfl, rfl, rfl, rfl⟩
      rw [notifyLoop_none_eq]
      rfl
    | some j =>
      exfalso
      have hj : j ∈ Ids w.ev.callbacks := hc
      obtain ⟨c0, rest, hsf, _, _⟩ := suffixFrom_of_mem hj
      have hmj : (suffixFrom w.ev.callbacks j).length ≤ 0 := hm
      rw [hsf] at hmj
      simp at hmj
  | succ fuel ih =>
    intro arg c w hp hnd hc hm
    cases c with
    | none =>
      refine ⟨w, ?_, rfl, rfl, rfl, rfl⟩
      rw [notifyLoop_none_eq]
      rfl
    | some j =>
      have hj : j ∈ Ids w.ev.callbacks := hc
      obtain ⟨cb0, rest, hsf, hsucc, hlook⟩ := suffixFrom_of_mem hj
      have hpure : cb0.act = Act.pure := hp (j, cb0) (lookupCb_mem hlook)
      have hrun : runAct cb0.act
          { w with ev := { w.ev with nextCallback := succAfter w.ev.callbacks j } }
          = some { w with ev := { w.ev with nextCallback := succAfter w.ev.callbacks j } } := by
        rw [hpure]
        exact runAct_pure_eq _
      have hmj : (suffixFrom w.ev.callbacks j).length ≤ fuel + 1 := hm
      have hrest : rest.length ≤ fuel := by
        rw [hsf] at hmj
        simp only [List.length_cons] at hmj
        omega
      have hlive2 : optLive w.ev.callbacks (succAfter w.ev.callbacks j) := by
        cases heq : succAfter w.ev.callbacks j with
        | none => trivial
        | some k => exact succAfter_mem heq
      have hm2 : (optSuffix w.ev.callbacks (succAfter w.ev.callbacks j)).length ≤ fuel := by
        cases heq : succAfter w.ev.callbacks j with
        | none => simp [optSuffix]
        | some k =>
          have h1 : suffixFrom w.ev.callbacks k = (suffixFrom w.ev.callbacks j).tail :=
            (suffixFrom_succ hnd hj heq).2
          show (suffixFrom w.ev.callbacks k).length ≤ fuel
          rw [h1, hsf]
          simpa using hrest
      obtain ⟨w', hloop, hcb', hh', hen', hni'⟩ :=
        ih arg (succAfter w.ev.callbacks j)
          { w with ev := { w.ev with nextCallback := succAfter w.ev.callbacks j } }
          hp hnd hlive2 hm2
      have htr : (optSuffix w.ev.callbacks (succAfter w.ev.callbacks j)).map
          (fun p => (p.1, p.2.label, arg)) = rest.map (fun p => (p.1, p.2.label, arg)) := by
        cases heq : succAfter w.ev.callbacks j with
        | none =>
          rw [heq] at hsucc
          cases hre : rest with
          | nil => rfl
          | cons q r =>
            rw [hre] at hsucc
            simp at hsucc
        | some k =>
          have h1 : suffixFrom w.ev.callbacks k = (suffixFrom w.ev.callbacks j).tail :=
            (suffixFrom_succ hnd hj heq).2
          show (suffixFrom w.ev.callbacks k).map _ = _
          rw [h1, hsf]
          rfl
      refine ⟨w', ?_, hcb', hh', hen', hni'⟩
      have heq2 := notifyLoop_succ_eq hlook hrun hloop
      rw [heq2]
      show _ = some (w', (optSuffix w.ev.callbacks (some j)).map (fun p => (p.1, p.2.label, arg)))
      rw [show optSuffix w.ev.callbacks (some j) = suffixFrom w.ev.callbacks j from rfl, hsf]
      rw [List.map_cons]
      rw [htr]

/-- Event notify on an enabled channel whose callbacks are all pure invokes
every callback once, in list order, with the given argument, and changes
nothing but the cursor, which ends at the sentinel. -/
theorem notify_pure {w : World} (arg : Nat)
    (hp : ∀ p ∈ w.ev.callbacks, p.2.act = Act.pure)
    (hnd : (Ids w.ev.callbacks).Nodup)
    (hen : w.ev.enabled = true) :
    ∃ w', Event.notify w arg =
        some (w', w.ev.callbacks.map (fun p => (p.1, p.2.label, arg))) ∧
      w'.ev.callbacks = w.ev.callbacks ∧ w'.handles = w.handles ∧
      w'.ev.enabled = w.ev.enabled ∧ w'.ev.nextId = w.ev.nextId ∧
      w'.ev.nextCallback = none := by
  have hm : (optSuffix w.ev.callbacks (w.ev.callbacks.head?.map Prod.fst)).length
      ≤ w.ev.callbacks.length := le_of_eq (by rw [optSuffix_head])
  obtain ⟨w1, hloop, hcb, hhh, hen1, hni⟩ :=
    notifyLoop_pure _ arg _ w hp hnd (optLive_head _) hm
  refine ⟨{ w1 with ev := { w1.ev with nextCallback := none } }, ?_, hcb, hhh, hen1, hni, rfl⟩
  have heq := notify_eq_of_loop hen hloop
  rw [heq, optSuffix_head]

theorem add_back (s : Event) (c : Cb) :
    Event.add s c false
      = ({ s with callbacks := s.callbacks ++ [(s.nextId, c)], nextId := s.nextId + 1 },
         s.nextId) := rfl

theorem add_front (s : Event) (c : Cb) :
    Event.add s c true
      = ({ s with callbacks := (s.nextId, c) :: s.callbacks, nextId := s.nextId + 1 },
         s.nextId) := rfl

theorem add_wf {s : Event} (c : Cb) (first : Bool)
    (hb : idsBounded s) (hnd : (Ids s.callbacks).Nodup) :
    idsBounded (Event.add s c first).1 ∧ (Ids (Event.add s c first).1.callbacks).Nodup ∧
      (Event.add s c first).1.enabled = s.enabled := by
  have hnotmem : s.nextId ∉ Ids s.callbacks := fun hmem => Nat.lt_irrefl _ (hb _ hmem)
  cases first with
  | true =>
    rw [add_front]
    refine ⟨?_, ?_, rfl⟩
    · intro j hj
      rw [Ids_cons] at hj
      rcases List.mem_cons.mp hj with h1 | h1
      · rw [h1]; exact Nat.lt_succ_self _
      · exact Nat.lt_succ_of_lt (hb _ h1)
    · rw [Ids_cons]
      exact List.nodup_cons.mpr ⟨hnotmem, hnd⟩
  | false =>
    rw [add_back]
    refine ⟨?_, ?_, rfl⟩
    · intro j hj
      rw [Ids_append] at hj
      rcases List.mem_append.mp hj with h1 | h1
      · exact Nat.lt_succ_of_lt (hb _ h1)
      · rw [Ids_cons] at h1
        rcases List.mem_cons.mp h1 with h2 | h2
        · rw [h2]; exact Nat.lt_succ_self _
        · cases h2
    · rw [Ids_append]
      exact (List.perm_append_singleton _ _).nodup_iff.mpr
        (List.nodup_cons.mpr ⟨hnotmem, hnd⟩)

theorem applyAdds_wf (ops : List AddOp) :
    ∀ s : Event, idsBounded s → (Ids s.callbacks).Nodup →
      (∀ p ∈ s.callbacks, p.2.act = Act.pure) →
      idsBounded (applyAdds s ops) ∧ (Ids (applyAdds s ops).callbacks).Nodup ∧
        (applyAdds s ops).enabled = s.enabled ∧
        (∀ p ∈ (applyAdds s ops).callbacks, p.2.act = Act.pure) := by
  induction ops with
  | nil =>
    intro s hb hnd hp
    exact ⟨hb, hnd, rfl, hp⟩
  | cons op rest ih =>
    intro s hb hnd hp
    cases op with
    | back l =>
      have hstep := add_wf (s := s) ⟨l, Act.pure⟩ false hb hnd
      have hp' : ∀ p ∈ (Event.add s ⟨l, Act.pure⟩ false).1.callbacks, p.2.act = Act.pure := by
        rw [add_back]
        intro p hpm
        rcases List.mem_append.mp hpm with h1 | h1
        · exact hp p h1
        · rcases List.mem_cons.mp h1 with h2 | h2
          · rw [h2]
          · cases h2
      obtain ⟨h1, h2, h3, h4⟩ := ih _ hstep.1 hstep.2.1 hp'
      exact ⟨h1, h2, h3.trans hstep.2.2, h4⟩
    | front l =>
      have hstep := add_wf (s := s) ⟨l, Act.pure⟩ true hb hnd
      have hp' : ∀ p ∈ (Event.add s ⟨l, Act.pure⟩ true).1.callbacks, p.2.act = Act.pure := by
        rw [add_front]
        intro p hpm
        rcases List.mem_cons.mp hpm with h1 | h1
        · rw [h1]
        · exact hp p h1
      obtain ⟨h1, h2, h3, h4⟩ := ih _ hstep.1 hstep.2.1 hp'
      exact ⟨h1, h2, h3.trans hstep.2.2, h4⟩

theorem applyAdds_labels (ops : List AddOp) :
    ∀ s : Event, Labels (applyAdds s ops).callbacks
      = (frontLabels ops).reverse ++ Labels s.callbacks ++ backLabels ops := by
  induction ops with
  | nil =>
    intro s
    simp [applyAdds, frontLabels, backLabels]
  | cons op rest ih =>
    intro s
    cases op with
    | back l =>
      rw [applyAdds, ih, frontLabels, backLabels]
      rw [add_back]
      show (frontLabels rest).reverse ++ Labels (s.callbacks ++ [(s.nextId, ⟨l, Act.pure⟩)])
          ++ backLabels rest = _
      rw [Labels_append]
      show _ = (frontLabels rest).reverse ++ Labels s.callbacks ++ (l :: backLabels rest)
      simp [List.append_assoc, Labels]
    | front l =>
      rw [applyAdds, ih, frontLabels, backLabels]
      rw [add_front]
      show (frontLabels rest).reverse ++ Labels ((s.nextId, (⟨l, Act.pure⟩ : Cb)) :: s.callbacks)
          ++ backLabels rest = _
      rw [Labels_cons]
      show _ = (l :: frontLabels rest).reverse ++ Labels s.callbacks ++ backLabels rest
      simp [List.append_assoc, Labels]

/-- Claim C4: on an enabled channel built by any interleaved sequence of add
calls, notify invokes the back inserted callbacks in insertion order after
all front inserted callbacks, and the front inserted callbacks in reverse
insertion order (most recent first); concretely, after add of cbA then add of
cbB at the front, notify of 7 invokes cbB with 7 and then cbA with 7. -/
theorem C4_ordering (ops : List AddOp) (arg : Nat) :
    (∃ w' tr, Event.notify ⟨applyAdds Event.new ops, []⟩ arg = some (w', tr) ∧
      tr.map (fun e : TraceEntry => e.2)
        = ((frontLabels ops).reverse ++ backLabels ops).map (fun l => (l, arg))) ∧
    ∃ w2, Event.notify ⟨applyAdds Event.new [AddOp.back 10, AddOp.front 20], []⟩ 7
      = some (w2, [(1, 20, 7), (0, 10, 7)]) := by
  constructor
  · have hbase1 : idsBounded Event.new := by
      intro j hj
      cases hj
    have hbase2 : (Ids Event.new.callbacks).Nodup := List.nodup_nil
    have hbase3 : ∀ p ∈ Event.new.callbacks, p.2.act = Act.pure := by
      intro p hpm
      cases hpm
    obtain ⟨hb, hnd, hen, hp⟩ := applyAdds_wf ops Event.new hbase1 hbase2 hbase3
    obtain ⟨w', hnot, _, _, _, _, _⟩ :=
      notify_pure (w := ⟨applyAdds Event.new ops, []⟩) arg hp hnd hen
    refine ⟨w', _, hnot, ?_⟩
    rw [List.map_map]
    have hlab := applyAdds_labels ops Event.new
    have h2 : ((frontLabels ops).reverse ++ backLabels ops).map (fun l => (l, arg))
        = (Labels (applyAdds Event.new ops).callbacks).map (fun l => (l, arg)) := by
      rw [hlab]
      show _ = ((frontLabels ops).reverse ++ Labels [] ++ backLabels ops).map _
      simp [Labels]
    rw [h2, Labels, List.map_map]
    rfl
  · exact ⟨⟨⟨[(1, ⟨20, Act.pure⟩), (0, ⟨10, Act.pure⟩)], true, none, 2⟩, []⟩, by decide⟩

/-- Claim C5: with the channel disabled, notify invokes zero callbacks and
leaves the whole state (callback sequence, enabled flag, dispatch cursor)
unchanged, and re-enabling a channel that was enabled before a disable
restores the state exactly, so a later notify dispatches exactly as it would
have before the disable. -/
theorem C5_disable_gate (w w0 : World) (arg : Nat)
    (hdis : w.ev.enabled = false) (hen : w0.ev.enabled = true) :
    Event.notify w arg = some (w, []) ∧
    World.setEnabled (World.setEnabled w0 false) true = w0 := by
  constructor
  · unfold Event.notify
    rw [hdis]
    simp
  · cases w0 with
    | mk ev hs =>
      cases ev with
      | mk cb en nc ni =>
        have hen' : en = true := hen
        subst hen'
        rfl

/-- Witness for C5 at a concrete disabled channel and a concrete enabled one. -/
theorem C5_disable_gate_witness :
    Event.notify ⟨⟨[(0, ⟨5, Act.pure⟩)], false, none, 1⟩, []⟩ 3 =
      some (⟨⟨[(0, ⟨5, Act.pure⟩)], false, none, 1⟩, []⟩, []) ∧
    World.setEnabled (World.setEnabled ⟨⟨[], true, none, 0⟩, []⟩ false) true =
      ⟨⟨[], true, none, 0⟩, []⟩ :=
  C5_disable_gate ⟨⟨[(0, ⟨5, Act.pure⟩)], false, none, 1⟩, []⟩
    ⟨⟨[], true, none, 0⟩, []⟩ 3 rfl rfl

/-- Claim C6: constructing a ScopedDisable guard records the current enabled
value and disables the channel; destruction restores the recorded value; and
constructing and destroying two nested guards restores the channel exactly to
its state before the outer guard. -/
theorem C6_scoped_disable (e : Event) :
    (ScopedDisable.construct e).2 = e.isEnabled ∧
    ((ScopedDisable.construct e).1).isEnabled = false ∧
    (∀ p, (ScopedDisable.destruct e p).isEnabled = p) ∧
    ScopedDisable.destruct
      (ScopedDisable.destruct
        (ScopedDisable.construct (ScopedDisable.construct e).1).1
        (ScopedDisable.construct (ScopedDisable.construct e).1).2)
      (ScopedDisable.construct e).2 = e := by
  cases e
  simp [ScopedDisable.construct, ScopedDisable.destruct, Event.setEnabled, Event.isEnabled]

/-- Witness for C3 at a concrete world: the first callback removes the not
yet visited third callback during dispatch. -/
theorem C3_reentrant_removal_witness :
    WF wC3 ∧
    (∃ w' tr, Event.notify wC3 7 = some (w', tr) ∧
      (tr.map (fun e : TraceEntry => e.1)).Nodup ∧
      (∀ e ∈ tr, e.1 ∈ Ids wC3.ev.callbacks) ∧
      List.Sublist w'.ev.callbacks wC3.ev.callbacks ∧
      WF w' ∧
      (∀ j, j ∉ Ids w'.ev.callbacks →
        ∀ arg' w'' tr', Event.notify w' arg' = some (w'', tr') → ∀ e ∈ tr', e.1 ≠ j) ∧
      (∀ (fuel : Nat) (c : Option Nat) (w1 w2 : World) (tr1 : List TraceEntry) (j : Nat),
        j ∉ Ids w1.ev.callbacks → notifyLoop fuel 7 c w1 = some (w2, tr1) →
        ∀ e ∈ tr1, e.1 ≠ j)) :=
  ⟨by decide, C3_reentrant_removal wC3 7 (by decide)⟩

/-- Claim C9: Value set assigns the new value and then dispatches the channel
exactly once carrying the newly stored value, with no equality check: a
second set of the same value dispatches again identically, and get afterwards
returns the stored value. -/
theorem C9_value_set (v : Value) (x : Nat)
    (hen : v.w.ev.enabled = true)
    (hnd : (Ids v.w.ev.callbacks).Nodup)
    (hp : ∀ p ∈ v.w.ev.callbacks, p.2.act = Act.pure) :
    ∃ v1 tr1 v2 tr2,
      Value.set v x = some (v1, tr1) ∧
      v1.t = x ∧ Value.get v1 = x ∧
      tr1 = v.w.ev.callbacks.map (fun p => (p.1, p.2.label, x)) ∧
      Value.set v1 x = some (v2, tr2) ∧
      tr2 = tr1 ∧ v2.t = x ∧ Value.get v2 = x := by
  obtain ⟨w1, hnot1, hcb1, hh1, hen1, hni1, hcur1⟩ := notify_pure (w := v.w) x hp hnd hen
  have hset1 : Value.set v x
      = some (({ t := x, w := w1 } : Value),
              v.w.ev.callbacks.map (fun p => (p.1, p.2.label, x))) := by
    show (Event.notify v.w x).map _ = _
    rw [hnot1, Option.map_some']
  have hp2 : ∀ p ∈ w1.ev.callbacks, p.2.act = Act.pure := by
    rw [hcb1]
    exact hp
  have hnd2 : (Ids w1.ev.callbacks).Nodup := by
    rw [hcb1]
    exact hnd
  have hen2 : w1.ev.enabled = true := by
    rw [hen1]
    exact hen
  obtain ⟨w2, hnot2, hcb2, hh2, hen2', hni2, hcur2⟩ := notify_pure (w := w1) x hp2 hnd2 hen2
  have hset2 : Value.set ({ t := x, w := w1 } : Value) x
      = some (({ t := x, w := w2 } : Value),
              w1.ev.callbacks.map (fun p => (p.1, p.2.label, x))) := by
    show (Event.notify w1 x).map _ = _
    rw [hnot2, Option.map_some']
  refine ⟨{ t := x, w := w1 }, _, { t := x, w := w2 }, _, hset1, rfl, rfl, rfl, hset2, ?_, rfl,
    rfl⟩
  rw [hcb1]

/-- Witness for C9: setting the value 5 on a value already holding 5, twice,
dispatches the single listener both times. -/
theorem C9_value_set_witness :
    (vC9.w.ev.enabled = true ∧ (Ids vC9.w.ev.callbacks).Nodup ∧
      (∀ p ∈ vC9.w.ev.callbacks, p.2.act = Act.pure)) ∧
    (∃ v1 tr1 v2 tr2,
      Value.set vC9 5 = some (v1, tr1) ∧
      v1.t = 5 ∧ Value.get v1 = 5 ∧
      tr1 = vC9.w.ev.callbacks.map (fun p => (p.1, p.2.label, 5)) ∧
      Value.set v1 5 = some (v2, tr2) ∧
      tr2 = tr1 ∧ v2.t = 5 ∧ Value.get v2 = 5) :=
  ⟨⟨rfl, by decide, by decide⟩, C9_value_set vC9 5 rfl (by decide) (by decide)⟩

/-- Claim C7: the deferred notifier stores a value copy of the argument
variable read at construction time; a later write to the variable does not
change the stored snapshot (a notifier made after the write would capture the
new value instead), and every trigger call performs a full dispatch of the
channel with the construction time value. -/
theorem C7_snapshot (store : Nat → Nat) (a v' : Nat) (w : World)
    (hp : ∀ p ∈ w.ev.callbacks, p.2.act = Act.pure)
    (hnd : (Ids w.ev.callbacks).Nodup)
    (hen : w.ev.enabled = true) :
    (makeNotifierFromVar store a).snapshot = store a ∧
    makeNotifierFromVar (Function.update store a v') a = ⟨v'⟩ ∧
    (∀ w1 : World, (makeNotifierFromVar store a).trigger w1 = Event.notify w1 (store a)) ∧
    ∃ w2, (makeNotifierFromVar store a).trigger w
      = some (w2, w.ev.callbacks.map (fun p => (p.1, p.2.label, store a))) := by
  refine ⟨rfl, by simp [makeNotifierFromVar], fun w1 => rfl, ?_⟩
  obtain ⟨w2, hnot, _⟩ := notify_pure (w := w) (store a) hp hnd hen
  exact ⟨w2, hnot⟩

/-- Witness for C7: the variable holds 5 at construction and is then set to
9; the trigger still delivers 5 to the listener. -/
theorem C7_snapshot_witness :
    ((∀ p ∈ wC7.ev.callbacks, p.2.act = Act.pure) ∧ (Ids wC7.ev.callbacks).Nodup ∧
      wC7.ev.enabled = true) ∧
    ((makeNotifierFromVar (fun _ => 5) 0).snapshot = (fun _ : Nat => 5) 0 ∧
     makeNotifierFromVar (Function.update (fun _ => 5) 0 9) 0 = ⟨9⟩ ∧
     (∀ w1 : World, (makeNotifierFromVar (fun _ => 5) 0).trigger w1
        = Event.notify w1 ((fun _ : Nat => 5) 0)) ∧
     ∃ w2, (makeNotifierFromVar (fun _ => 5) 0).trigger wC7
        = some (w2, wC7.ev.callbacks.map (fun p => (p.1, p.2.label, (fun _ : Nat => 5) 0)))) :=
  ⟨⟨by decide, by decide, rfl⟩,
   C7_snapshot (fun _ => 5) 0 9 wC7 (by decide) (by decide) rfl⟩

/-- Counterexample to claim C2 as stated: called with the empty sentinel,
replace does not report failure; it dereferences the end iterator (undefined
behavior, modelled as none) and in particular never produces the reported
false the claim requires. -/
theorem C2_counterexample :
    Event.replace sC2 none ⟨7, Act.pure⟩ = none ∧
    ∀ r : Event, Event.replace sC2 none ⟨7, Act.pure⟩ ≠ some (r, false) :=
  ⟨rfl, fun _ h => Option.noConfusion h⟩

/-- Claim C2 as amended: replace with a live handle overwrites the callback
stored at that handle in place (same node ids in the same order, all other
bodies unchanged) and reports true; it performs no validity check and never
returns false: with the empty sentinel or a stale handle it dereferences an
invalid iterator (undefined behavior, modelled as none) instead of reporting
failure. -/
theorem C2_replace_amended (s : Event) (j : Nat) (c : Cb)
    (hj : j ∈ Ids s.callbacks) :
    (∃ s', Event.replace s (some j) c = some (s', true) ∧
      Ids s'.callbacks = Ids s.callbacks ∧
      lookupCb s'.callbacks j = some c ∧
      (∀ k, k ≠ j → lookupCb s'.callbacks k = lookupCb s.callbacks k) ∧
      s'.enabled = s.enabled ∧ s'.nextCallback = s.nextCallback ∧ s'.nextId = s.nextId) ∧
    Event.replace s none c = none ∧
    (∀ k, k ∉ Ids s.callbacks → Event.replace s (some k) c = none) ∧
    (∀ h r, Event.replace s h c = some r → r.2 = true) := by
  refine ⟨⟨{ s with callbacks := writeAt s.callbacks j c }, ?_, Ids_writeAt _ _ _,
    lookupCb_writeAt_self c hj, fun k hk => lookupCb_writeAt_ne c hk, rfl, rfl, rfl⟩,
    rfl, ?_, ?_⟩
  · simp only [Event.replace]
    rw [if_pos hj]
  · intro k hk
    simp only [Event.replace]
    rw [if_neg hk]
  · intro h r hr
    cases h with
    | none => cases hr
    | some k =>
      simp only [Event.replace] at hr
      by_cases hk : k ∈ Ids s.callbacks
      · rw [if_pos hk] at hr
        injection hr with h1
        rw [← h1]
      · rw [if_neg hk] at hr
        cases hr

/-- Witness for the amended C2 at a concrete channel and live handle. -/
theorem C2_replace_amended_witness :
    (0 ∈ Ids sC2.callbacks) ∧
    ((∃ s', Event.replace sC2 (some 0) ⟨7, Act.pure⟩ = some (s', true) ∧
      Ids s'.callbacks = Ids sC2.callbacks ∧
      lookupCb s'.callbacks 0 = some ⟨7, Act.pure⟩ ∧
      (∀ k, k ≠ 0 → lookupCb s'.callbacks k = lookupCb sC2.callbacks k) ∧
      s'.enabled = sC2.enabled ∧ s'.nextCallback = sC2.nextCallback ∧
      s'.nextId = sC2.nextId) ∧
    Event.replace sC2 none ⟨7, Act.pure⟩ = none ∧
    (∀ k, k ∉ Ids sC2.callbacks → Event.replace sC2 (some k) ⟨7, Act.pure⟩ = none) ∧
    (∀ h r, Event.replace sC2 h ⟨7, Act.pure⟩ = some r → r.2 = true)) :=
  ⟨by decide, C2_replace_amended sC2 0 ⟨7, Act.pure⟩ (by decide)⟩

/-- Claim C10 (implicit invariant): whenever no dispatch is in progress the
cursor equals the end sentinel: it is none on a fresh channel and stays none
across add, setEnabled, remove (whose cursor advance branch is therefore
never taken outside dispatch: the result keeps the untouched cursor), and
replace, and it is none again after any completed notify; moreover a notify
on a nonempty enabled channel starts its walk at the first callback. -/
theorem C10_cursor_idle (s : Event) (w : World) (arg : Nat)
    (hs : s.nextCallback = none) (hw : w.ev.nextCallback = none) :
    Event.new.nextCallback = none ∧
    (∀ c f, ((Event.add s c f).1).nextCallback = none) ∧
    (∀ b, (Event.setEnabled s b).nextCallback = none) ∧
    Event.remove s none = some (s, none) ∧
    (∀ j, j ∈ Ids s.callbacks →
      Event.remove s (some j) = some ({ s with callbacks := eraseId s.callbacks j }, none)) ∧
    (∀ j c s' b, Event.replace s (some j) c = some (s', b) → s'.nextCallback = none) ∧
    (∀ w' tr, Event.notify w arg = some (w', tr) → w'.ev.nextCallback = none) ∧
    (w.ev.enabled = true → ∀ p rest, w.ev.callbacks = p :: rest →
      ∀ w' tr, Event.notify w arg = some (w', tr) →
        ∃ tr', tr = (p.1, p.2.label, arg) :: tr') := by
  refine ⟨rfl, ?_, fun b => hs, remove_none s, ?_, ?_, ?_, ?_⟩
  · intro c f
    cases f with
    | true => exact hs
    | false => exact hs
  · intro j hj
    have hg : s.nextCallback ≠ some j := by
      rw [hs]
      exact fun he => Option.noConfusion he
    exact remove_live_noguard hj hg
  · intro j c s' b hr
    simp only [Event.replace] at hr
    by_cases hk : j ∈ Ids s.callbacks
    · rw [if_pos hk] at hr
      injection hr with h1
      injection h1 with h1a h1b
      rw [← h1a]
      exact hs
    · rw [if_neg hk] at hr
      cases hr
  · intro w' tr hnot
    by_cases hen : w.ev.enabled = true
    · rw [Event.notify, if_pos hen] at hnot
      cases hloop : notifyLoop w.ev.callbacks.length arg
          (w.ev.callbacks.head?.map Prod.fst) w with
      | none =>
        rw [hloop, Option.map_none'] at hnot
        cases hnot
      | some res =>
        rw [hloop, Option.map_some'] at hnot
        injection hnot with h1
        injection h1 with h1a h1b
        rw [← h1a]
    · have hdis : w.ev.enabled = false := by simpa using hen
      rw [notify_disabled hdis] at hnot
      injection hnot with h1
      injection h1 with h1a h1b
      rw [← h1a]
      exact hw
  · intro hen p rest hcb w' tr hnot
    rw [Event.notify, if_pos hen] at hnot
    cases hloop : notifyLoop w.ev.callbacks.length arg
        (w.ev.callbacks.head?.map Prod.fst) w with
    | none =>
      rw [hloop, Option.map_none'] at hnot
      cases hnot
    | some res =>
      rw [hloop, Option.map_some'] at hnot
      injection hnot with h1
      injection h1 with h1a h1b
      rw [hcb] at hloop
      rw [List.length_cons] at hloop
      simp only [List.head?_cons, Option.map_some'] at hloop
      rw [notifyLoop] at hloop
      have hlook : lookupCb w.ev.callbacks p.1 = some p.2 := by
        rw [hcb, lookupCb, if_pos rfl]
      rw [hlook, Option.some_bind] at hloop
      cases hrun : runAct p.2.act
          { w with ev := { w.ev with nextCallback := succAfter w.ev.callbacks p.1 } } with
      | none =>
        rw [hrun, Option.none_bind] at hloop
        cases hloop
      | some w2 =>
        rw [hrun, Option.some_bind] at hloop
        cases hloop2 : notifyLoop rest.length arg w2.ev.nextCallback w2 with
        | none =>
          rw [hloop2, Option.map_none'] at hloop
          cases hloop
        | some res2 =>
          rw [hloop2, Option.map_some'] at hloop
          injection hloop with h2
          refine ⟨res2.2, ?_⟩
          rw [← h1b, ← h2]

/-- Witness for C10 at a concrete one-callback channel. -/
theorem C10_cursor_idle_witness :
    (sC10.nextCallback = none ∧ wC10.ev.nextCallback = none) ∧
    (Event.new.nextCallback = none ∧
    (∀ c f, ((Event.add sC10 c f).1).nextCallback = none) ∧
    (∀ b, (Event.setEnabled sC10 b).nextCallback = none) ∧
    Event.remove sC10 none = some (sC10, none) ∧
    (∀ j, j ∈ Ids sC10.callbacks →
      Event.remove sC10 (some j)
        = some ({ sC10 with callbacks := eraseId sC10.callbacks j }, none)) ∧
    (∀ j c s' b, Event.replace sC10 (some j) c = some (s', b) → s'.nextCallback = none) ∧
    (∀ w' tr, Event.notify wC10 3 = some (w', tr) → w'.ev.nextCallback = none) ∧
    (wC10.ev.enabled = true → ∀ p rest, wC10.ev.callbacks = p :: rest →
      ∀ w' tr, Event.notify wC10 3 = some (w', tr) →
        ∃ tr', tr = (p.1, p.2.label, 3) :: tr')) :=
  ⟨⟨rfl, rfl⟩, C10_cursor_idle sC10 wC10 3 rfl rfl⟩

/-- Claim C1, evaluated at the failing input.  The owner holds the
subscription with label 11 on channel 0, which also carries an independent
subscription with label 10; channel 1 carries label 20.  Replacing towards
channel 1 with a new callback labelled 12 leaves channel 1 untouched (the new
callback is never subscribed there), copy assigns channel 1's subscriber list
over channel 0 (destroying the independent label 10 subscription), adds the
new callback to channel 0, and leaves the owner still referring to channel 0,
contradicting the claim. -/
theorem C1_replace_bug :
    (ScopedCallbackID.replace chC1 ⟨0, some 1⟩ 1 ⟨12, Act.pure⟩ false).map
        (fun r => (Labels (r.1 0).callbacks, Labels (r.1 1).callbacks, r.2))
      = some ([20, 12], [20], (⟨0, some 3⟩ : ScopedCallbackID)) := by
  decide

theorem eraseId_cons_ne {p : Nat × Cb} {l : List (Nat × Cb)} {j : Nat} (h : p.1 ≠ j) :
    eraseId (p :: l) j = p :: eraseId l j := by
  rw [eraseId, if_neg h]

theorem eraseId_cons_self {p : Nat × Cb} {l : List (Nat × Cb)} (h : p.1 = j) :
    eraseId (p :: l) j = l := by
  rw [eraseId, if_pos h]

theorem make_eq (χ : Chans) (k : Nat) (c : Cb) (f : Bool) :
    ScopedCallbackID.make χ k c f
      = (Function.update χ k (insCb (χ k) ((χ k).nextId, c) f),
         (⟨k, some (χ k).nextId⟩ : ScopedCallbackID)) := by
  cases f with
  | true => rfl
  | false => rfl

theorem destroyAll_append (a b : List ScopedCallbackID) :
    ∀ χ, destroyAll χ (a ++ b) = (destroyAll χ a).bind (fun χ1 => destroyAll χ1 b) := by
  induction a with
  | nil =>
    intro χ
    rw [List.nil_append, destroyAll, Option.some_bind]
  | cons o rest ih =>
    intro χ
    rw [List.cons_append, destroyAll, destroyAll]
    cases hd : ScopedCallbackID.destruct χ o with
    | none => rfl
    | some χ1 => rw [Option.some_bind, Option.some_bind, ih]

/-- Inserting a fresh node into channel k commutes with destroying a set of
owned entries none of which holds that node: the fold still succeeds and the
inserted node survives at its position. -/
theorem destroyAll_insert (os : List ScopedCallbackID) :
    ∀ (χ χ' : Chans), destroyAll χ os = some χ' →
    (∀ i, (χ i).nextCallback = none) →
    ∀ (k : Nat) (node : Nat × Cb) (f : Bool),
    (∀ o ∈ os, o.evIdx = k → ∀ j, o.cb = some j → j ≠ node.1) →
    destroyAll (Function.update χ k (insCb (χ k) node f)) os
      = some (Function.update χ' k (insCb (χ' k) node f)) := by
  induction os with
  | nil =>
    intro χ χ' h hcur k node f hfresh
    injection h with h1
    subst h1
    rw [destroyAll]
  | cons o rest ih =>
    intro χ χ' h hcur k node f hfresh
    rw [destroyAll] at h
    cases hocb : o.cb with
    | none =>
      have hd : ScopedCallbackID.destruct χ o = some χ := by
        rw [ScopedCallbackID.destruct, hocb, remove_none, Option.map_some',
          Function.update_eq_self]
      rw [hd, Option.some_bind] at h
      have hdN : ScopedCallbackID.destruct (Function.update χ k (insCb (χ k) node f)) o
          = some (Function.update χ k (insCb (χ k) node f)) := by
        rw [ScopedCallbackID.destruct, hocb, remove_none, Option.map_some',
          Function.update_eq_self]
      rw [destroyAll, hdN, Option.some_bind]
      exact ih χ χ' h hcur k node f (fun o2 ho2 => hfresh o2 (List.mem_cons_of_mem _ ho2))
    | some j =>
      by_cases hmem : j ∈ Ids (χ o.evIdx).callbacks
      · have hgne : (χ o.evIdx).nextCallback ≠ some j := by
          rw [hcur o.evIdx]
          exact fun he => Option.noConfusion he
        have hd : ScopedCallbackID.destruct χ o
            = some (Function.update χ o.evIdx
                ({ χ o.evIdx with callbacks := eraseId (χ o.evIdx).callbacks j })) := by
          rw [ScopedCallbackID.destruct, hocb, remove_live_noguard hmem hgne, Option.map_some']
        rw [hd, Option.some_bind] at h
        have hcur1 : ∀ i, ((Function.update χ o.evIdx
            ({ χ o.evIdx with callbacks := eraseId (χ o.evIdx).callbacks j })) i).nextCallback
            = none := by
          intro i
          by_cases hi : i = o.evIdx
          · rw [hi, Function.update_same]
            exact hcur o.evIdx
          · rw [Function.update_noteq hi]
            exact hcur i
        have hfresh1 : ∀ o2 ∈ rest, o2.evIdx = k → ∀ j2, o2.cb = some j2 → j2 ≠ node.1 :=
          fun o2 ho2 => hfresh o2 (List.mem_cons_of_mem _ ho2)
        by_cases hik : o.evIdx = k
        · subst hik
          have hfr : j ≠ node.1 := hfresh o (List.mem_cons_self o rest) rfl j hocb
          have hdN : ScopedCallbackID.destruct
              (Function.update χ o.evIdx (insCb (χ o.evIdx) node f)) o
              = some (Function.update χ o.evIdx
                  (insCb ({ χ o.evIdx with callbacks := eraseId (χ o.evIdx).callbacks j })
                    node f)) := by
            rw [ScopedCallbackID.destruct, hocb, Function.update_same]
            cases f with
            | true =>
              have hmem2 : j ∈ Ids (insCb (χ o.evIdx) node true).callbacks := by
                show j ∈ Ids (node :: (χ o.evIdx).callbacks)
                rw [Ids_cons]
                exact List.mem_cons_of_mem _ hmem
              have hgne2 : (insCb (χ o.evIdx) node true).nextCallback ≠ some j := hgne
              rw [remove_live_noguard hmem2 hgne2, Option.map_some', Function.update_idem]
              have he : eraseId (insCb (χ o.evIdx) node true).callbacks j
                  = node :: eraseId (χ o.evIdx).callbacks j := by
                show eraseId (node :: (χ o.evIdx).callbacks) j = _
                exact eraseId_cons_ne (Ne.symm hfr)
              rw [he]
              rfl
            | false =>
              have hmem2 : j ∈ Ids (insCb (χ o.evIdx) node false).callbacks := by
                show j ∈ Ids ((χ o.evIdx).callbacks ++ [node])
                rw [Ids_append]
                exact List.mem_append_left _ hmem
              have hgne2 : (insCb (χ o.evIdx) node false).nextCallback ≠ some j := hgne
              rw [remove_live_noguard hmem2 hgne2, Option.map_some', Function.update_idem]
              have he : eraseId (insCb (χ o.evIdx) node false).callbacks j
                  = eraseId (χ o.evIdx).callbacks j ++ [node] := by
                show eraseId ((χ o.evIdx).callbacks ++ [node]) j = _
                exact eraseId_append_left hmem
              rw [he]
              rfl
          rw [destroyAll, hdN, Option.some_bind]
          have hres := ih (Function.update χ o.evIdx
              ({ χ o.evIdx with callbacks := eraseId (χ o.evIdx).callbacks j }))
            χ' h hcur1 o.evIdx node f hfresh1
          rw [Function.update_same, Function.update_idem] at hres
          exact hres
        · have hkne : k ≠ o.evIdx := fun he => hik he.symm
          have hdN : ScopedCallbackID.destruct (Function.update χ k (insCb (χ k) node f)) o
              = some (Function.update (Function.update χ k (insCb (χ k) node f)) o.evIdx
                  ({ χ o.evIdx with callbacks := eraseId (χ o.evIdx).callbacks j })) := by
            rw [ScopedCallbackID.destruct, hocb, Function.update_noteq hik,
              remove_live_noguard hmem hgne, Option.map_some']
          rw [destroyAll, hdN, Option.some_bind]
          have hcomm : Function.update (Function.update χ k (insCb (χ k) node f)) o.evIdx
                ({ χ o.evIdx with callbacks := eraseId (χ o.evIdx).callbacks j })
              = Function.update (Function.update χ o.evIdx
                  ({ χ o.evIdx with callbacks := eraseId (χ o.evIdx).callbacks j })) k
                  (insCb ((Function.update χ o.evIdx
                    ({ χ o.evIdx with callbacks := eraseId (χ o.evIdx).callbacks j })) k)
                    node f) := by
            rw [Function.update_comm hkne]
            rw [Function.update_noteq hkne]
          rw [hcomm]
          exact ih (Function.update χ o.evIdx
              ({ χ o.evIdx with callbacks := eraseId (χ o.evIdx).callbacks j }))
            χ' h hcur1 k node f hfresh1
      · have hd : ScopedCallbackID.destruct χ o = none := by
          rw [ScopedCallbackID.destruct, hocb, remove_stale hmem, Option.map_none']
        rw [hd, Option.none_bind] at h
        cases h

/-- One addCallback step preserves the registry invariant. -/
theorem holderInv_step (χ0 χ : Chans) (os : List ScopedCallbackID) (k : Nat) (c : Cb) (f : Bool)
    (hb : ∀ i, idsBounded (χ0 i))
    (hc0 : ∀ i, (χ0 i).nextCallback = none)
    (hinv : HolderInv χ0 χ os) :
    HolderInv χ0 (Function.update χ k (insCb (χ k) ((χ k).nextId, c) f))
      (os ++ [⟨k, some (χ k).nextId⟩]) := by
  obtain ⟨hcur, hmono, hbound, χr, hda, hobs, hnid⟩ := hinv
  refine ⟨?_, ?_, ?_, ?_⟩
  · intro i
    by_cases hi : i = k
    · rw [hi, Function.update_same]
      exact hcur k
    · rw [Function.update_noteq hi]
      exact hcur i
  · intro i
    by_cases hi : i = k
    · rw [hi, Function.update_same]
      exact le_trans (hmono k) (Nat.le_succ _)
    · rw [Function.update_noteq hi]
      exact hmono i
  · intro o ho j hoj
    rcases List.mem_append.mp ho with h1 | h1
    · by_cases hi : o.evIdx = k
      · rw [hi, Function.update_same]
        have h2 := hbound o h1 j hoj
        rw [hi] at h2
        exact Nat.lt_succ_of_lt h2
      · rw [Function.update_noteq hi]
        exact hbound o h1 j hoj
    · rw [List.mem_singleton] at h1
      subst h1
      injection hoj with h2
      subst h2
      rw [Function.update_same]
      exact Nat.lt_succ_self _
  · have hfresh : ∀ o ∈ os, o.evIdx = k → ∀ j, o.cb = some j → j ≠ (χ k).nextId := by
      intro o ho hoi j hoj he
      have h2 := hbound o ho j hoj
      rw [hoi] at h2
      rw [he] at h2
      exact Nat.lt_irrefl _ h2
    have hins := destroyAll_insert os χ χr hda hcur k ((χ k).nextId, c) f hfresh
    have hnotmem : (χ k).nextId ∉ Ids (χr k).callbacks := by
      intro hmem
      have hcbeq : (χr k).callbacks = (χ0 k).callbacks := (hobs k).1
      rw [hcbeq] at hmem
      have h2 := hb k _ hmem
      have h3 := hmono k
      omega
    have hcurr : (χr k).nextCallback = none := by
      have h2 := (hobs k).2.2
      rw [h2]
      exact hc0 k
    have hd2 : ScopedCallbackID.destruct
        (Function.update χr k (insCb (χr k) ((χ k).nextId, c) f))
        (⟨k, some (χ k).nextId⟩ : ScopedCallbackID)
        = some (Function.update χr k
            ({ χr k with nextId := (χr k).nextId + 1 })) := by
      rw [ScopedCallbackID.destruct]
      show (Event.remove ((Function.update χr k (insCb (χr k) ((χ k).nextId, c) f)) k)
          (some (χ k).nextId)).map _ = _
      rw [Function.update_same]
      cases f with
      | true =>
        have hmem2 : (χ k).nextId ∈ Ids (insCb (χr k) ((χ k).nextId, c) true).callbacks := by
          show (χ k).nextId ∈ Ids (((χ k).nextId, c) :: (χr k).callbacks)
          rw [Ids_cons]
          exact List.mem_cons_self _ _
        have hgne2 : (insCb (χr k) ((χ k).nextId, c) true).nextCallback
            ≠ some (χ k).nextId := by
          show (χr k).nextCallback ≠ _
          rw [hcurr]
          exact fun he => Option.noConfusion he
        rw [remove_live_noguard hmem2 hgne2, Option.map_some', Function.update_idem]
        have he : eraseId (insCb (χr k) ((χ k).nextId, c) true).callbacks (χ k).nextId
            = (χr k).callbacks := by
          show eraseId (((χ k).nextId, c) :: (χr k).callbacks) (χ k).nextId = _
          exact eraseId_cons_self rfl
        rw [he]
        rfl
      | false =>
        have hmem2 : (χ k).nextId ∈ Ids (insCb (χr k) ((χ k).nextId, c) false).callbacks := by
          show (χ k).nextId ∈ Ids ((χr k).callbacks ++ [((χ k).nextId, c)])
          rw [Ids_append]
          refine List.mem_append_right _ ?_
          rw [Ids_cons]
          exact List.mem_cons_self _ _
        have hgne2 : (insCb (χr k) ((χ k).nextId, c) false).nextCallback
            ≠ some (χ k).nextId := by
          show (χr k).nextCallback ≠ _
          rw [hcurr]
          exact fun he => Option.noConfusion he
        rw [remove_live_noguard hmem2 hgne2, Option.map_some', Function.update_idem]
        have he : eraseId (insCb (χr k) ((χ k).nextId, c) false).callbacks (χ k).nextId
            = (χr k).callbacks := by
          show eraseId ((χr k).callbacks ++ [((χ k).nextId, c)]) (χ k).nextId = _
          exact eraseId_append_sentinel hnotmem
        rw [he]
        rfl
    refine ⟨Function.update χr k ({ χr k with nextId := (χr k).nextId + 1 }), ?_, ?_, ?_⟩
    · rw [destroyAll_append, hins, Option.some_bind, destroyAll, hd2, Option.some_bind,
        destroyAll]
    · intro i
      by_cases hi : i = k
      · rw [hi, Function.update_same]
        exact hobs k
      · rw [Function.update_noteq hi]
        exact hobs i
    · intro i
      by_cases hi : i = k
      · rw [hi, Function.update_same, Function.update_same]
        show (χr k).nextId + 1 = (χ k).nextId + 1
        rw [hnid k]
      · rw [Function.update_noteq hi, Function.update_noteq hi]
        exact hnid i

theorem applyAddCallbacks_inv (ops : List (Nat × Cb × Bool)) :
    ∀ (χ0 χ : Chans) (h : ScopedCallbacksHolder),
    (∀ i, idsBounded (χ0 i)) →
    (∀ i, (χ0 i).nextCallback = none) →
    HolderInv χ0 χ h.owners →
    ∃ χ1 h1, applyAddCallbacks χ h ops = (χ1, h1) ∧
      HolderInv χ0 χ1 h1.owners ∧
      h1.owners.length = h.owners.length + ops.length := by
  induction ops with
  | nil =>
    intro χ0 χ h hb hc hinv
    exact ⟨χ, h, rfl, hinv, rfl⟩
  | cons op rest ih =>
    intro χ0 χ h hb hc hinv
    obtain ⟨k, c, f⟩ := op
    have hstep := holderInv_step χ0 χ h.owners k c f hb hc hinv
    have happ : applyAddCallbacks χ h ((k, c, f) :: rest)
        = applyAddCallbacks (Function.update χ k (insCb (χ k) ((χ k).nextId, c) f))
            ⟨h.owners ++ [⟨k, some (χ k).nextId⟩]⟩ rest := by
      rw [applyAddCallbacks]
      rw [ScopedCallbacksHolder.addCallback]
      rw [make_eq]
    obtain ⟨χ1, h1, happ2, hinv1, hlen⟩ :=
      ih χ0 (Function.update χ k (insCb (χ k) ((χ k).nextId, c) f))
        ⟨h.owners ++ [⟨k, some (χ k).nextId⟩]⟩ hb hc hstep
    refine ⟨χ1, h1, ?_, hinv1, ?_⟩
    · rw [happ, happ2]
    · rw [hlen]
      show (h.owners ++ [(⟨k, some (χ k).nextId⟩ : ScopedCallbackID)]).length + rest.length = _
      rw [List.length_append]
      simp [List.length_cons]
      omega

/-- Claim C8: adding any number of subscriptions to any channels through one
registry and then destroying the registry (or, identically, calling
removeAllCallbacks) destroys every owned entry and removes every one of those
subscriptions, restoring every channel to its original observable state, so
a subsequent notify behaves exactly as before the subscriptions were added;
calling removeAllCallbacks again on the emptied registry is a no-op. -/
theorem C8_registry_teardown (χ0 : Chans) (ops : List (Nat × Cb × Bool))
    (hb : ∀ i, idsBounded (χ0 i)) (hc : ∀ i, (χ0 i).nextCallback = none) :
    ∃ χ1 h1 χ2,
      applyAddCallbacks χ0 ⟨[]⟩ ops = (χ1, h1) ∧
      h1.owners.length = ops.length ∧
      ScopedCallbacksHolder.removeAllCallbacks χ1 h1 = some (χ2, ⟨[]⟩) ∧
      (∀ i, obsEq (χ2 i) (χ0 i)) ∧
      ScopedCallbacksHolder.removeAllCallbacks χ2 ⟨[]⟩ = some (χ2, ⟨[]⟩) := by
  have hinv0 : HolderInv χ0 χ0 [] := by
    refine ⟨hc, fun i => le_refl _, ?_, χ0, rfl, fun i => ⟨rfl, rfl, rfl⟩, fun i => rfl⟩
    intro o ho
    exact absurd ho (List.not_mem_nil o)
  obtain ⟨χ1, h1, happ, hinv1, hlen⟩ :=
    applyAddCallbacks_inv ops χ0 χ0 ⟨[]⟩ hb hc hinv0
  obtain ⟨hcur1, hmono1, hbound1, χ2, hda, hobs, hnid⟩ := hinv1
  refine ⟨χ1, h1, χ2, happ, by simpa using hlen, ?_, hobs, ?_⟩
  · rw [ScopedCallbacksHolder.removeAllCallbacks, hda, Option.map_some']
  · rw [ScopedCallbacksHolder.removeAllCallbacks]
    show (destroyAll χ2 []).map _ = _
    rw [destroyAll, Option.map_some']

/-- Witness for C8: three subscriptions over two initially fresh channels,
added through one registry and then torn down. -/
theorem C8_registry_teardown_witness :
    ((∀ i, idsBounded ((fun _ : Nat => Event.new) i)) ∧
     (∀ i, ((fun _ : Nat => Event.new) i).nextCallback = none)) ∧
    (∃ χ1 h1 χ2,
      applyAddCallbacks (fun _ => Event.new) ⟨[]⟩
        [(0, ⟨1, Act.pure⟩, false), (0, ⟨2, Act.pure⟩, true), (1, ⟨3, Act.pure⟩, false)]
        = (χ1, h1) ∧
      h1.owners.length
        = ([(0, ⟨1, Act.pure⟩, false), (0, ⟨2, Act.pure⟩, true), (1, ⟨3, Act.pure⟩, false)]
            : List (Nat × Cb × Bool)).length ∧
      ScopedCallbacksHolder.removeAllCallbacks χ1 h1 = some (χ2, ⟨[]⟩) ∧
      (∀ i, obsEq (χ2 i) ((fun _ : Nat => Event.new) i)) ∧
      ScopedCallbacksHolder.removeAllCallbacks χ2 ⟨[]⟩ = some (χ2, ⟨[]⟩)) :=
  ⟨⟨fun _ j hj => absurd hj (List.not_mem_nil j), fun _ => rfl⟩,
   C8_registry_teardown (fun _ => Event.new) _
     (fun _ j hj => absurd hj (List.not_mem_nil j)) (fun _ => rfl)⟩

end Picoevents
